import Mathlib

/-!
Formal model of the souk marketplace mutation engine.

The definitions below are a shallow embedding of the Rust sources in
`crates/souk-core/src`: the decimal formatting used by `format!`, the
path-extension rules of `Path::with_extension`, an explicit filesystem
state with a chronological journal of mutations, the `AtomicGuard`
backup/restore unit (`ops/atomic.rs`), the validators
(`validation/plugin.rs`, `validation/marketplace.rs`), and the
Add/Remove/Update pipelines (`ops/add.rs`, `ops/remove.rs`,
`ops/update.rs`).  Theorems about the specified behaviour follow the
definitions.
-/

namespace Souk

/-- Decimal digit list of a natural number (most significant digit first),
with explicit fuel so the recursion is structural; models the decimal
rendering performed by Rust integer formatting.  The fuel only needs to be
at least the number of digits, and `natRepr` always supplies enough. -/
def toDecimalAux : Nat → Nat → List Char
  | 0, _ => []
  | fuel + 1, n =>
      if n < 10 then [Nat.digitChar n]
      else toDecimalAux fuel (n / 10) ++ [Nat.digitChar (n % 10)]

/-- Decimal string of a natural number, as produced by Rust `format!("{n}")`. -/
def natRepr (n : Nat) : String :=
  ⟨toDecimalAux (n + 1) n⟩

/-- Reads a decimal digit list back into the number it denotes; used to show
that `natRepr` is injective. -/
def decodeDec (cs : List Char) : Nat :=
  cs.foldl (fun acc c => acc * 10 + (c.toNat - 48)) 0

/-- Splits a file name into stem and extension following Rust's
`Path::file_stem` / `Path::extension` rules: the split is at the last dot;
a name without a dot, a name whose only dot is the leading character, and
the special name `..` have no extension. -/
def splitExtChars (cs : List Char) : List Char × Option (List Char) :=
  if cs = ['.', '.'] then (cs, none)
  else
    let rev := cs.reverse
    let after := rev.takeWhile (fun c => c ≠ '.')
    match rev.dropWhile (fun c => c ≠ '.') with
    | [] => (cs, none)
    | _ :: beforeRev =>
        if beforeRev = [] then (cs, none)
        else (beforeRev.reverse, some after.reverse)

/-- Replaces the extension of a file name whose stem is `stem`, following
Rust's `Path::set_extension`: an empty new extension leaves just the stem,
otherwise a dot and the new extension are appended to the stem. -/
def withExtChars (stem ext : List Char) : List Char :=
  if ext = [] then stem else stem ++ '.' :: ext

/-- Name of the backup file created by `AtomicGuard::new` for a file named
`file`, at Unix time `epoch`: the original name with its extension replaced
by `{old_extension}.bak.{epoch}` (`ops/atomic.rs`, lines 75-82). -/
def backupFileName (file : String) (epoch : Nat) : String :=
  let p := splitExtChars file.data
  ⟨withExtChars p.1 (p.2.getD [] ++ ('.' :: 'b' :: 'a' :: 'k' :: '.' :: (natRepr epoch).data))⟩

/-- Filesystem paths are canonical lists of components (no `.` or empty
components); the last component is the file or directory name. -/
abbrev FPath := List String

/-- Path of the backup file used by `AtomicGuard`, a sibling of the
original path. -/
def backupPath (p : FPath) (epoch : Nat) : FPath :=
  p.dropLast ++ [backupFileName (p.getLastD "") epoch]

/-- Structural model of `str::starts_with` (equivalently the
character-prefix test). -/
def strStartsWith (s pre : String) : Bool :=
  pre.data.isPrefixOf s.data

/-- Splits a character list at every `/`, keeping empty groups (the
character-level behaviour of `str::split`). -/
def splitSlashes : List Char → List (List Char)
  | [] => [[]]
  | c :: cs =>
      if c = '/' then [] :: splitSlashes cs
      else
        match splitSlashes cs with
        | [] => [[c]]
        | g :: gs => (c :: g) :: gs

/-- Joins strings with a separator (the behaviour of `String::intercalate`,
re-implemented structurally). -/
def joinWith (sep : String) : List String → String
  | [] => ""
  | [x] => x
  | x :: rest => x ++ sep ++ joinWith sep rest

/-- Renders a path for error messages, as an absolute `/`-separated string. -/
def pathStr (p : FPath) : String :=
  "/" ++ joinWith "/" p

/-- Turns a path string into canonical components: split on `/` and drop
empty and `.` components (the filesystem model works on canonical paths,
so `canonicalize` is resolution-free). -/
def parseComps (s : String) : FPath :=
  ((splitSlashes s.data).map (fun g => String.mk g)).filter
    (fun c => !(c == "" || c == "."))

/-- One entry of `marketplace.json` (`types/marketplace.rs`, `PluginEntry`). -/
structure PluginEntry where
  name : String
  source : String
  tags : List String
deriving DecidableEq, Repr

/-- The `marketplace.json` document (`types/marketplace.rs`, `Marketplace`). -/
structure Marketplace where
  version : String
  pluginRoot : Option String
  plugins : List PluginEntry
deriving DecidableEq, Repr

/-- The `pluginRoot` value, defaulting to `./plugins`
(`types/marketplace.rs`, `plugin_root`). -/
def Marketplace.pluginRootStr (m : Marketplace) : String :=
  m.pluginRoot.getD "./plugins"

/-- Normalized plugin root (`types/marketplace.rs`, `normalized_plugin_root`). -/
def Marketplace.normalizedPluginRoot (m : Marketplace) : String :=
  let root := m.pluginRootStr
  if strStartsWith root "./" || strStartsWith root "/" then root else "./" ++ root

/-- A `plugin.json` manifest (`types/plugin.rs`, `PluginManifest`).  Each of
the three metadata fields is `none` exactly when the JSON field is absent,
null, or not a string, matching `name_str`/`version_str`/`description_str`,
which are the only observations the program makes of those fields. -/
structure PluginJson where
  name : Option String
  version : Option String
  description : Option String
  keywords : List String
deriving DecidableEq, Repr

/-- A JSON value that the program observes only through `as_str` (the
`version` field inside a dependency object of `extends-plugin.json`). -/
inductive JPrim where
  | pnull : JPrim
  | pbool : JPrim
  | pnum : JPrim
  | pstr (s : String) : JPrim
  | parr : JPrim
  | pobj : JPrim
deriving DecidableEq, Repr

/-- A dependency value in a section of `extends-plugin.json`: a string
constraint, an object whose `version` field defaults to `*`, or one of the
invalid shapes. -/
inductive JDep where
  | dstr (s : String) : JDep
  | dobj (fields : List (String × JPrim)) : JDep
  | dnull : JDep
  | dbool : JDep
  | dnum : JDep
  | darr : JDep
deriving DecidableEq, Repr

/-- A section value of `extends-plugin.json`: null (skipped), an object of
dependencies, or another JSON shape carrying only its type name, which is
all `value_type_name` reports. -/
inductive JSection where
  | snull : JSection
  | sobj (deps : List (String × JDep)) : JSection
  | sother (typeName : String) : JSection
deriving DecidableEq, Repr

/-- An `extends-plugin.json` document as observed by `validate_extends_plugin`:
a JSON object mapping keys to section values, or a non-object value.  JSON
structure deeper than the validator ever inspects is collapsed. -/
inductive JDoc where
  | jobj (fields : List (String × JSection)) : JDoc
  | jnonObject : JDoc
deriving DecidableEq, Repr

/-- Content of one file.  JSON files are stored in parsed form: the model
identifies a file's bytes with the structured value they encode, which is
faithful because `serde_json` round-trips every document this program
writes. -/
inductive Content where
  | marketplace (m : Marketplace) : Content
  | pluginJson (j : PluginJson) : Content
  | jsonVal (d : JDoc) : Content
  | text (s : String) : Content
deriving DecidableEq, Repr

/-- A mutation recorded in the filesystem journal, in chronological order. -/
inductive Event where
  | wrote (p : FPath) (c : Content) : Event
  | removedFile (p : FPath) : Event
  | removedDir (p : FPath) : Event
  | copiedTree (src dst : FPath) : Event
deriving DecidableEq, Repr

/-- Looks a path up in an association list of files (first match wins). -/
def lookupFile : List (FPath × Content) → FPath → Option Content
  | [], _ => none
  | (q, c) :: rest, p => if q = p then some c else lookupFile rest p

/-- Removes every entry for a path from an association list of files. -/
def eraseFile : List (FPath × Content) → FPath → List (FPath × Content)
  | [], _ => []
  | (q, c) :: rest, p => if q = p then eraseFile rest p else (q, c) :: eraseFile rest p

/-- Removes every file at or under a directory path. -/
def eraseFilesUnder : List (FPath × Content) → FPath → List (FPath × Content)
  | [], _ => []
  | (q, c) :: rest, p =>
      if p.isPrefixOf q then eraseFilesUnder rest p else (q, c) :: eraseFilesUnder rest p

/-- Removes every directory at or under a directory path. -/
def eraseDirsUnder : List FPath → FPath → List FPath
  | [], _ => []
  | d :: rest, p => if p.isPrefixOf d then eraseDirsUnder rest p else d :: eraseDirsUnder rest p

/-- The filesystem state: file contents, the set of directories, and a
chronological journal of every mutation performed. -/
structure FS where
  files : List (FPath × Content)
  dirs : List FPath
  journal : List Event
deriving DecidableEq, Repr

/-- Reads the content of the file at `p`, if present. -/
def FS.read (fs : FS) (p : FPath) : Option Content :=
  lookupFile fs.files p

/-- Models `Path::is_file`. -/
def FS.isFile (fs : FS) (p : FPath) : Bool :=
  (fs.read p).isSome

/-- Models `Path::is_dir`. -/
def FS.isDir (fs : FS) (p : FPath) : Bool :=
  fs.dirs.contains p

/-- Models `Path::exists`. -/
def FS.pathExists (fs : FS) (p : FPath) : Bool :=
  fs.isFile p || fs.isDir p

/-- Models `fs::write` (create or truncate). -/
def FS.write (fs : FS) (p : FPath) (c : Content) : FS :=
  { files := (p, c) :: eraseFile fs.files p
    dirs := fs.dirs
    journal := fs.journal ++ [Event.wrote p c] }

/-- Models `fs::remove_file`. -/
def FS.removeFile (fs : FS) (p : FPath) : FS :=
  { files := eraseFile fs.files p
    dirs := fs.dirs
    journal := fs.journal ++ [Event.removedFile p] }

/-- Models `fs::remove_dir_all`. -/
def FS.removeDirAll (fs : FS) (p : FPath) : FS :=
  { files := eraseFilesUnder fs.files p
    dirs := eraseDirsUnder fs.dirs p
    journal := fs.journal ++ [Event.removedDir p] }

/-- Models `copy_dir_recursive` (`ops/add.rs`): every file and directory in
the subtree at `src` reappears under `dst`, and `dst` itself is created. -/
def FS.copyTree (fs : FS) (src dst : FPath) : FS :=
  { files := fs.files.filterMap (fun e =>
      if src.isPrefixOf e.1 then some (dst ++ e.1.drop src.length, e.2) else none) ++ fs.files
    dirs := dst :: fs.dirs.filterMap (fun d =>
      if src.isPrefixOf d then some (dst ++ d.drop src.length) else none) ++ fs.dirs
    journal := fs.journal ++ [Event.copiedTree src dst] }

/-- Error taxonomy (`error.rs`, `SoukError`); variants this model never
constructs are omitted, and I/O, JSON and semver errors carry no payload. -/
inductive Err where
  | pluginNotFound (name : String) : Err
  | pluginAlreadyExists (name : String) : Err
  | validationFailed (n : Nat) : Err
  | atomicRollback (msg : String) : Err
  | ioErr : Err
  | jsonErr : Err
  | semverErr : Err
  | other (msg : String) : Err
deriving DecidableEq, Repr

/-- Splits a character list at every dot, keeping empty groups, mirroring
how a version string `a.b.c` decomposes. -/
def splitDots : List Char → List (List Char)
  | [] => [[]]
  | c :: cs =>
      if c = '.' then [] :: splitDots cs
      else
        match splitDots cs with
        | [] => [[c]]
        | g :: gs => (c :: g) :: gs

/-- True when the character list is a non-empty run of decimal digits. -/
def isDigitRun (cs : List Char) : Bool :=
  !cs.isEmpty && cs.all Char.isDigit

/-- Parses a non-empty digit run. -/
def decodeDigits (cs : List Char) : Option Nat :=
  if isDigitRun cs then some (decodeDec cs) else none

/-- Model of `semver::Version::parse`, restricted to the observations the
program makes: the `major.minor.patch` core before any `-` pre-release or
`+` build suffix.  The tail after `-`/`+` is not grammar-checked, an
idealization that no pipeline in this development depends on. -/
def parseSemver (s : String) : Option (Nat × Nat × Nat) :=
  let core := s.data.takeWhile (fun c => c ≠ '-' && c ≠ '+')
  match splitDots core with
  | [a, b, c] =>
      match decodeDigits a, decodeDigits b, decodeDigits c with
      | some x, some y, some z => some (x, y, z)
      | _, _, _ => none
  | _ => none

/-- Renders a `major.minor.patch` version string, as `semver::Version::new`
followed by `to_string` does (pre-release and build are always empty). -/
def semverString (major minor patch : Nat) : String :=
  natRepr major ++ "." ++ natRepr minor ++ "." ++ natRepr patch

/-- Model of `version.rs` `bump_major`. -/
def bumpMajor (version : String) : Except Err String :=
  match parseSemver version with
  | some (ma, _, _) => .ok (semverString (ma + 1) 0 0)
  | none => .error .semverErr

/-- Model of `version.rs` `bump_minor`. -/
def bumpMinor (version : String) : Except Err String :=
  match parseSemver version with
  | some (ma, mi, _) => .ok (semverString ma (mi + 1) 0)
  | none => .error .semverErr

/-- Model of `version.rs` `bump_patch`. -/
def bumpPatch (version : String) : Except Err String :=
  match parseSemver version with
  | some (ma, mi, pa) => .ok (semverString ma mi (pa + 1))
  | none => .error .semverErr

/-- The guard of `ops/atomic.rs`: original path, optional backup path, and
the committed flag. -/
structure AtomicGuard where
  originalPath : FPath
  backupPath? : Option FPath
  committed : Bool
deriving DecidableEq, Repr

/-- Model of `AtomicGuard::new` (`ops/atomic.rs`, lines 66-95): if the file
exists its bytes are copied to the timestamped sibling backup; otherwise no
backup is made.  The Rust function fails only when the backup copy itself
fails at the I/O level, which the model filesystem cannot, so the model is
total. -/
def AtomicGuard.new (fs : FS) (path : FPath) (epoch : Nat) : AtomicGuard × FS :=
  match fs.read path with
  | some c =>
      ({ originalPath := path, backupPath? := some (backupPath path epoch),
         committed := false },
       fs.write (backupPath path epoch) c)
  | none =>
      ({ originalPath := path, backupPath? := none, committed := false }, fs)

/-- Model of `AtomicGuard::commit` (`ops/atomic.rs`, lines 118-126).  The
committed flag is set before the backup delete is attempted; `removeOk`
injects the possible failure of `fs::remove_file`.  The returned guard is
what `Drop` subsequently sees. -/
def AtomicGuard.commit (g : AtomicGuard) (fs : FS) (removeOk : Bool) :
    AtomicGuard × Except Err FS :=
  let committedGuard : AtomicGuard := { g with committed := true }
  match g.backupPath? with
  | some backup =>
      if (fs.read backup).isSome then
        if removeOk then (committedGuard, .ok (fs.removeFile backup))
        else (committedGuard, .error .ioErr)
      else (committedGuard, .ok fs)
  | none => (committedGuard, .ok fs)

/-- Model of `Drop for AtomicGuard` (`ops/atomic.rs`, lines 129-145): no
restore after commit; otherwise, if the backup still exists, its bytes are
copied back over the original and the backup is removed. -/
def AtomicGuard.drop (g : AtomicGuard) (fs : FS) : FS :=
  if g.committed then fs
  else
    match g.backupPath? with
    | some backup =>
        match fs.read backup with
        | some c => (fs.write g.originalPath c).removeFile backup
        | none => fs
    | none => fs

/-- Validation severity (`error.rs`, `Severity`). -/
inductive Severity where
  | error : Severity
  | warning : Severity
deriving DecidableEq, Repr

/-- One validation finding (`error.rs`, `ValidationDiagnostic`).  Messages
are kept verbatim except where the original interpolates I/O or parse error
text, which is abbreviated. -/
structure Diagnostic where
  severity : Severity
  message : String
  path : Option FPath
  field : Option String
deriving DecidableEq, Repr

/-- Model of `ValidationDiagnostic::error`. -/
def Diagnostic.mkError (msg : String) : Diagnostic :=
  ⟨Severity.error, msg, none, none⟩

/-- Model of `ValidationDiagnostic::warning`. -/
def Diagnostic.mkWarning (msg : String) : Diagnostic :=
  ⟨Severity.warning, msg, none, none⟩

/-- Model of `ValidationDiagnostic::with_path`. -/
def Diagnostic.withPath (d : Diagnostic) (p : FPath) : Diagnostic :=
  { d with path := some p }

/-- Model of `ValidationDiagnostic::with_field`. -/
def Diagnostic.withField (d : Diagnostic) (f : String) : Diagnostic :=
  { d with field := some f }

/-- The result of a validation pass (`error.rs`, `ValidationResult`). -/
structure ValidationResult where
  diagnostics : List Diagnostic
deriving DecidableEq, Repr

/-- Model of `ValidationResult::has_errors`. -/
def ValidationResult.hasErrors (r : ValidationResult) : Bool :=
  r.diagnostics.any (fun d => decide (d.severity = Severity.error))

/-- Model of `ValidationResult::error_count`. -/
def ValidationResult.errorCount (r : ValidationResult) : Nat :=
  (r.diagnostics.filter (fun d => decide (d.severity = Severity.error))).length

/-- The loaded marketplace configuration (`discovery.rs`,
`MarketplaceConfig`). -/
structure Config where
  marketplace_path : FPath
  project_root : FPath
  plugin_root_abs : FPath
  marketplace : Marketplace
deriving DecidableEq, Repr

/-- First registry entry with the given name
(`plugins.iter().find(|p| p.name == name)`). -/
def findEntry : List PluginEntry → String → Option PluginEntry
  | [], _ => none
  | e :: rest, name => if e.name = name then some e else findEntry rest name

/-- Names of the registry entries. -/
def entryNames (m : Marketplace) : List String :=
  m.plugins.map (fun p => p.name)

/-- Model of `Path::canonicalize`: paths in this model are already in
canonical component form, so canonicalization is an existence check. -/
def canonicalizePath (fs : FS) (p : FPath) : Except Err FPath :=
  if fs.pathExists p then .ok p else .error .ioErr

/-- Model of `resolution/plugin.rs` `resolve_source`. -/
def resolveSource (source : String) (cfg : Config) : FPath :=
  if strStartsWith source "/" then parseComps source
  else if strStartsWith source "./" || strStartsWith source "../" then
    cfg.project_root ++ parseComps source
  else cfg.plugin_root_abs ++ parseComps source

/-- Model of `resolution/plugin.rs` `resolve_plugin` with a configuration
always supplied.  The direct-path branch is modelled for absolute inputs;
the working directory, through which Rust would also resolve relative
direct paths, is outside the model. -/
def resolvePlugin (fs : FS) (input : String) (cfg : Config) : Except Err FPath :=
  let direct := parseComps input
  if strStartsWith input "/" && fs.isDir direct then canonicalizePath fs direct
  else
    let relative := cfg.plugin_root_abs ++ parseComps input
    if fs.isDir relative then canonicalizePath fs relative
    else
      match findEntry cfg.marketplace.plugins input with
      | some entry =>
          let resolved := resolveSource entry.source cfg
          if fs.isDir resolved then canonicalizePath fs resolved
          else .error (.pluginNotFound input)
      | none => .error (.pluginNotFound input)

/-- Model of `resolution/plugin.rs` `plugin_path_to_source`. -/
def pluginPathToSource (fs : FS) (path : FPath) (cfg : Config) : String × Bool :=
  let canonPath := match canonicalizePath fs path with
    | .ok p => p
    | .error _ => path
  if cfg.plugin_root_abs.isPrefixOf canonPath then
    ((canonPath.drop cfg.plugin_root_abs.length).headD "", true)
  else (pathStr canonPath, false)

/-- Path of a plugin's own manifest file. -/
def pluginJsonPathOf (pluginPath : FPath) : FPath :=
  pluginPath ++ [".claude-plugin", "plugin.json"]

/-- Path of a plugin's optional dependency-declaration file. -/
def extendsJsonPathOf (pluginPath : FPath) : FPath :=
  pluginPath ++ [".claude-plugin", "extends-plugin.json"]

/-- True when the character list is a non-empty run of `[a-zA-Z0-9.]`. -/
def isPreRun (cs : List Char) : Bool :=
  !cs.isEmpty && cs.all (fun c => c.isAlphanum || c == '.')

/-- True when the character list matches `[0-9]+\.[0-9]+\.[0-9]+`. -/
def isCoreVersionChars (cs : List Char) : Bool :=
  match splitDots cs with
  | [a, b, c] => isDigitRun a && isDigitRun b && isDigitRun c
  | _ => false

/-- True when the character list matches `core(-pre)?`. -/
def isCoreDashPre (cs : List Char) : Bool :=
  let core := cs.takeWhile (fun c => c ≠ '-')
  match cs.dropWhile (fun c => c ≠ '-') with
  | [] => isCoreVersionChars core
  | _ :: pre => isCoreVersionChars core && isPreRun pre

/-- Model of `is_valid_version_constraint` (`types/version_constraint.rs`):
the anchored regex alternation of `*`, an optionally `^`/`~`-prefixed
`major.minor.patch` with optional `-pre`, or a comparison-operator-prefixed
one. -/
def isValidVersionConstraint (s : String) : Bool :=
  match s.data with
  | ['*'] => true
  | '>' :: '=' :: rest => isCoreDashPre rest
  | '<' :: '=' :: rest => isCoreDashPre rest
  | '>' :: rest => isCoreDashPre rest
  | '<' :: rest => isCoreDashPre rest
  | '=' :: rest => isCoreDashPre rest
  | '^' :: rest => isCoreDashPre rest
  | '~' :: rest => isCoreDashPre rest
  | cs => isCoreDashPre cs

/-- Association-list lookup among the sections of an extends document
(`serde_json` object `get`). -/
def jLookupSection : List (String × JSection) → String → Option JSection
  | [], _ => none
  | (k, v) :: rest, key => if k = key then some v else jLookupSection rest key

/-- Association-list lookup inside a dependency object. -/
def jLookupPrim : List (String × JPrim) → String → Option JPrim
  | [], _ => none
  | (k, v) :: rest, key => if k = key then some v else jLookupPrim rest key

/-- Model of `Value::as_str` on the `version` field of a dependency object. -/
def JPrim.asStr : JPrim → Option String
  | .pstr s => some s
  | _ => none

/-- Model of `validation/extends.rs` `extract_version`. -/
def extractVersion : JDep → Option String
  | .dstr s => some s
  | .dobj fields => some (((jLookupPrim fields "version").bind JPrim.asStr).getD "*")
  | _ => none

/-- The fixed allowed top-level keys of `extends-plugin.json`. -/
def allowedKeys : List String :=
  ["dependencies", "optionalDependencies", "systemDependencies", "optionalSystemDependencies"]

/-- Diagnostics for the dependencies of one section, in field order. -/
def depDiags (extendsPath : FPath) (sectionName : String) :
    List (String × JDep) → List Diagnostic
  | [] => []
  | (depName, depVal) :: rest =>
      (match extractVersion depVal with
       | some v =>
           if !isValidVersionConstraint v then
             [((Diagnostic.mkError ("Invalid version constraint in " ++ sectionName ++ ": " ++
                 v ++ " (for " ++ depName ++ ")")).withPath extendsPath).withField
                 (sectionName ++ "." ++ depName)]
           else []
       | none =>
           [((Diagnostic.mkError ("Invalid dependency value in " ++ sectionName ++
               ": must be string or object with version (for " ++ depName ++ ")")).withPath
               extendsPath).withField (sectionName ++ "." ++ depName)]) ++
        depDiags extendsPath sectionName rest

/-- Diagnostics for the allowed sections, in `ALLOWED_KEYS` order. -/
def sectionDiags (extendsPath : FPath) (fields : List (String × JSection)) :
    List String → List Diagnostic
  | [] => []
  | sectionName :: rest =>
      (match jLookupSection fields sectionName with
       | none => []
       | some JSection.snull => []
       | some (JSection.sother typeName) =>
           [((Diagnostic.mkError ("Invalid " ++ sectionName ++
               " in extends-plugin.json: expected object, got " ++ typeName)).withPath
               extendsPath).withField sectionName]
       | some (JSection.sobj deps) => depDiags extendsPath sectionName deps) ++
        sectionDiags extendsPath fields rest

/-- Model of `validation/extends.rs` `validate_extends_plugin`. -/
def validateExtends (fs : FS) (pluginPath : FPath) : ValidationResult :=
  let ep := extendsJsonPathOf pluginPath
  match fs.read ep with
  | none => ⟨[]⟩
  | some (Content.jsonVal (JDoc.jobj fields)) =>
      ⟨fields.filterMap (fun kv =>
          if allowedKeys.contains kv.1 then none
          else some (((Diagnostic.mkError ("Invalid key in extends-plugin.json: " ++
            kv.1)).withPath ep).withField kv.1)) ++
        sectionDiags ep fields allowedKeys⟩
  | some (Content.jsonVal JDoc.jnonObject) =>
      ⟨[(Diagnostic.mkError "extends-plugin.json must be a JSON object").withPath ep]⟩
  | some _ =>
      ⟨[(Diagnostic.mkError "Invalid JSON in extends-plugin.json").withPath ep]⟩

/-- Model of `validation/plugin.rs` `validate_plugin`.  The unreadable-file
branch of the original (I/O failure on an existing file) has no counterpart
here because reads of existing files cannot fail in the model. -/
def validatePlugin (fs : FS) (pluginPath : FPath) : ValidationResult :=
  if !(fs.isDir pluginPath) then
    ⟨[(Diagnostic.mkError ("Plugin path does not exist or is not a directory: " ++
        pathStr pluginPath)).withPath pluginPath]⟩
  else
    let claudeDir := pluginPath ++ [".claude-plugin"]
    if !(fs.isDir claudeDir) then
      ⟨[(Diagnostic.mkError "Missing .claude-plugin directory").withPath pluginPath]⟩
    else
      let pjPath := claudeDir ++ ["plugin.json"]
      match fs.read pjPath with
      | none => ⟨[(Diagnostic.mkError "Missing plugin.json").withPath claudeDir]⟩
      | some (Content.pluginJson manifest) =>
          let nameDiags := if manifest.name.isNone then
              [((Diagnostic.mkError "Missing or null required field: name").withPath
                  pjPath).withField "name"] else []
          let versionDiags := if manifest.version.isNone then
              [((Diagnostic.mkError "Missing or null required field: version").withPath
                  pjPath).withField "version"] else []
          let descriptionDiags := if manifest.description.isNone then
              [((Diagnostic.mkError "Missing or null required field: description").withPath
                  pjPath).withField "description"] else []
          let semverDiags := match manifest.version with
            | some v =>
                if (parseSemver v).isNone then
                  [((Diagnostic.mkError ("Invalid semver version: " ++ v)).withPath
                      pjPath).withField "version"]
                else []
            | none => []
          ⟨nameDiags ++ versionDiags ++ descriptionDiags ++ semverDiags ++
            (validateExtends fs pluginPath).diagnostics⟩
      | some _ => ⟨[(Diagnostic.mkError "Invalid JSON in plugin.json").withPath pjPath]⟩

/-- Basename of a registry entry source
(`Path::new(&p.source).file_name()`, falling back to the source itself). -/
def sourceBasename (source : String) : String :=
  match (parseComps source).getLast? with
  | some b => b
  | none => source

/-- Names of the directories directly under a root directory, as a set
(`fs::read_dir` collected into a `HashSet`). -/
def childDirNames (fs : FS) (root : FPath) : List String :=
  (fs.dirs.filterMap (fun d =>
    if d.length == root.length + 1 && root.isPrefixOf d then d.getLast? else none)).dedup

/-- The set of source basenames referenced by the registry. -/
def mpSourceBasenames (m : Marketplace) : List String :=
  (m.plugins.map (fun p => sourceBasename p.source)).dedup

/-- Model of `validation/marketplace.rs` `find_orphaned_dirs` (the model
`read_dir` cannot fail). -/
def findOrphanedDirs (fs : FS) (cfg : Config) : List FPath :=
  ((childDirNames fs cfg.plugin_root_abs).filter
    (fun name => !(mpSourceBasenames cfg.marketplace).contains name)).map
    (fun name => cfg.plugin_root_abs ++ [name])

/-- Model of `validation/marketplace.rs` `check_completeness`. -/
def checkCompleteness (fs : FS) (cfg : Config) : ValidationResult :=
  let orphanWarnings := (findOrphanedDirs fs cfg).map (fun p =>
    (Diagnostic.mkWarning ("Plugin in filesystem but not in marketplace: " ++
      p.getLastD "")).withPath p)
  let fsPlugins := childDirNames fs cfg.plugin_root_abs
  let missingErrors := (mpSourceBasenames cfg.marketplace).filterMap (fun src =>
    if fsPlugins.contains src then none
    else some ((Diagnostic.mkError ("Plugin in marketplace but not in filesystem: " ++ src ++
      ". Run souk remove " ++ src ++ " to clean up the stale entry.")).withPath
      cfg.marketplace_path))
  ⟨orphanWarnings ++ missingErrors⟩

/-- Per-entry plugin validation performed by `validate_marketplace` when
plugin checks are not skipped. -/
def perPluginDiags (fs : FS) (cfg : Config) : List PluginEntry → List Diagnostic
  | [] => []
  | e :: rest =>
      let pluginPath := resolveSource e.source cfg
      (if fs.isDir pluginPath then (validatePlugin fs pluginPath).diagnostics else []) ++
        perPluginDiags fs cfg rest

/-- Duplicate-name diagnostics, one per repeated occurrence. -/
def dupNameDiags (mpPath : FPath) : List PluginEntry → List String → List Diagnostic
  | [], _ => []
  | e :: rest, seen =>
      (if seen.contains e.name then
        [(Diagnostic.mkError ("Duplicate plugin name: " ++ e.name)).withPath mpPath]
       else []) ++ dupNameDiags mpPath rest (e.name :: seen)

/-- Empty-name and empty-source diagnostics, with entry indices. -/
def emptyFieldDiags (mpPath : FPath) : List PluginEntry → Nat → List Diagnostic
  | [], _ => []
  | e :: rest, i =>
      (if e.name = "" then
        [((Diagnostic.mkError ("Plugin entry " ++ natRepr i ++ " has empty name")).withPath
            mpPath).withField ("plugins[" ++ natRepr i ++ "].name")]
       else []) ++
      (if e.source = "" then
        [((Diagnostic.mkError ("Plugin entry " ++ natRepr i ++ " has empty source")).withPath
            mpPath).withField ("plugins[" ++ natRepr i ++ "].source")]
       else []) ++
      emptyFieldDiags mpPath rest (i + 1)

/-- Model of `validation/marketplace.rs` `validate_marketplace`. -/
def validateMarketplace (fs : FS) (cfg : Config) (skipPlugins : Bool) : ValidationResult :=
  let mp := cfg.marketplace
  let versionDiags := if (parseSemver mp.version).isNone then
      [((Diagnostic.mkError ("Invalid marketplace version: " ++ mp.version)).withPath
          cfg.marketplace_path).withField "version"] else []
  let rootDiags := if !(fs.isDir cfg.plugin_root_abs) then
      [((Diagnostic.mkError ("Plugin root directory not found: " ++
          pathStr cfg.plugin_root_abs)).withPath cfg.marketplace_path).withField "pluginRoot"]
    else []
  let dupDiags := dupNameDiags cfg.marketplace_path mp.plugins []
  let emptyDiags := emptyFieldDiags cfg.marketplace_path mp.plugins 0
  let completenessDiags :=
    if fs.isDir cfg.plugin_root_abs then (checkCompleteness fs cfg).diagnostics else []
  let pluginDiags :=
    if !skipPlugins && fs.isDir cfg.plugin_root_abs then perPluginDiags fs cfg mp.plugins
    else []
  ⟨versionDiags ++ rootDiags ++ dupDiags ++ emptyDiags ++ completenessDiags ++ pluginDiags⟩

/-- Model of `Path::parent`. -/
def parentPath : FPath → Option FPath
  | [] => none
  | x :: rest => some ((x :: rest).dropLast)

/-- Model of `discovery.rs` `load_marketplace_config`. -/
def loadMarketplaceConfig (fs : FS) (path : FPath) : Except Err Config :=
  match canonicalizePath fs path with
  | .error e => .error e
  | .ok mpPath =>
    match fs.read mpPath with
    | none => .error .ioErr
    | some (Content.marketplace m) =>
        match parentPath mpPath with
        | none => .error (.other "Invalid marketplace path")
        | some claudeDir =>
          match parentPath claudeDir with
          | none => .error (.other "Invalid marketplace path")
          | some projectRoot =>
            let rootAbs := projectRoot ++ parseComps m.normalizedPluginRoot
            match canonicalizePath fs rootAbs with
            | .ok rootCanon =>
                .ok { marketplace_path := mpPath, project_root := projectRoot,
                      plugin_root_abs := rootCanon, marketplace := m }
            | .error _ =>
                .error (.other ("Plugin root directory not found: " ++ pathStr rootAbs))
    | some _ => .error .jsonErr

/-- Result of a remove operation (`ops/remove.rs`, `RemoveResult`). -/
structure RemoveResult where
  removed : List String
  warnings : List String
deriving DecidableEq, Repr

/-- The refusal message of `remove_plugins` for a directory outside the
plugin root (`ops/remove.rs`, lines 104-109). -/
def refuseDeleteMsg (resolved pluginRoot : FPath) : String :=
  "Refusing to delete " ++ pathStr resolved ++ ": path is outside pluginRoot (" ++
    pathStr pluginRoot ++ "). Use --allow-external-delete to override."

/-- The pre-mutation authorization scan of `remove_plugins` (`ops/remove.rs`,
lines 90-115): resolve every target, canonicalize the ones that are
directories, refuse an external path unless the override is given, and
collect the delete targets. -/
def removeScan (fs : FS) (cfg : Config) (allowExternalDelete : Bool) (pluginRoot : FPath) :
    List String → Except Err (List (String × FPath))
  | [] => .ok []
  | name :: rest =>
      match findEntry cfg.marketplace.plugins name with
      | none => .error (.other "unreachable: names were verified to exist")
      | some entry =>
          let pluginPath := resolveSource entry.source cfg
          if fs.isDir pluginPath then
            match canonicalizePath fs pluginPath with
            | .error e => .error e
            | .ok resolved =>
                if !(pluginRoot.isPrefixOf resolved) && !allowExternalDelete then
                  .error (.other (refuseDeleteMsg resolved pluginRoot))
                else
                  match removeScan fs cfg allowExternalDelete pluginRoot rest with
                  | .error e => .error e
                  | .ok targets => .ok ((name, resolved) :: targets)
          else removeScan fs cfg allowExternalDelete pluginRoot rest

/-- Registry-entry removal loop of `remove_plugins` (lines 124-130). -/
def removeEntriesLoop : List String → Marketplace → List String → Marketplace × List String
  | [], m, removedAcc => (m, removedAcc)
  | name :: rest, m, removedAcc =>
      if m.plugins.any (fun p => decide (p.name = name)) then
        removeEntriesLoop rest
          { m with plugins := m.plugins.filter (fun p => !(decide (p.name = name))) }
          (removedAcc ++ [name])
      else removeEntriesLoop rest m removedAcc

/-- Post-commit directory deletion of `remove_plugins` (lines 151-162); in
the model, directory removal cannot fail, so no warnings arise. -/
def deleteDirsLoop : List (String × FPath) → FS → FS
  | [], fs => fs
  | (_, path) :: rest, fs =>
      if fs.isDir path then deleteDirsLoop rest (fs.removeDirAll path)
      else deleteDirsLoop rest fs

/-- Guarded section of `remove_plugins` (lines 121-147): re-read and parse
the registry, drop the named entries, bump the patch version, write back,
re-load and re-validate. -/
def removeBody (names : List String) (cfg : Config) (fs : FS) :
    Except Err (List String) × FS :=
  match fs.read cfg.marketplace_path with
  | none => (.error .ioErr, fs)
  | some (Content.marketplace m) =>
      let p := removeEntriesLoop names m []
      match bumpPatch p.1.version with
      | .error e => (.error e, fs)
      | .ok newVersion =>
          let m2 := { p.1 with version := newVersion }
          let fs1 := fs.write cfg.marketplace_path (Content.marketplace m2)
          match loadMarketplaceConfig fs1 cfg.marketplace_path with
          | .error e => (.error e, fs1)
          | .ok updatedCfg =>
              if (validateMarketplace fs1 updatedCfg true).hasErrors then
                (.error (.atomicRollback "Validation failed after remove"), fs1)
              else (.ok p.2, fs1)
  | some _ => (.error .jsonErr, fs)

/-- Model of `ops/remove.rs` `remove_plugins`. -/
def removePlugins (names : List String) (deleteFiles allowExternalDelete : Bool)
    (cfg : Config) (epoch : Nat) (fs : FS) : Except Err RemoveResult × FS :=
  if names.isEmpty then (.ok ⟨[], []⟩, fs)
  else
    match names.find? (fun n => !((entryNames cfg.marketplace).contains n)) with
    | some missing => (.error (.pluginNotFound missing), fs)
    | none =>
        let scan : Except Err (List (String × FPath)) :=
          if deleteFiles then
            match canonicalizePath fs cfg.plugin_root_abs with
            | .error e => .error e
            | .ok root => removeScan fs cfg allowExternalDelete root names
          else .ok []
        match scan with
        | .error e => (.error e, fs)
        | .ok deleteTargets =>
            let acq := AtomicGuard.new fs cfg.marketplace_path epoch
            match removeBody names cfg acq.2 with
            | (.error e, fs2) => (.error e, acq.1.drop fs2)
            | (.ok removed, fs2) =>
                match (acq.1.commit fs2 true).2 with
                | .error e => (.error e, fs2)
                | .ok fs3 => (.ok ⟨removed, []⟩, deleteDirsLoop deleteTargets fs3)

/-- Version-bump stage of `update_plugins` (`ops/update.rs`, lines 78-102):
for each target, re-read its manifest, rewrite the version field when it is
a string, and write the document back (the write happens whether or not a
version rewrite occurred). -/
def bumpStage (bump : String) : List (String × FPath) → FS → Except Err Unit × FS
  | [], fs => (.ok (), fs)
  | (name, pluginPath) :: rest, fs =>
      let pjPath := pluginJsonPathOf pluginPath
      match fs.read pjPath with
      | none => (.error (.other ("Cannot read plugin.json for " ++ name)), fs)
      | some (Content.pluginJson j) =>
          match j.version with
          | some v =>
              let bumped : Except Err String :=
                if bump = "major" then bumpMajor v
                else if bump = "minor" then bumpMinor v
                else if bump = "patch" then bumpPatch v
                else .error (.other ("Invalid bump type: " ++ bump))
              match bumped with
              | .error e => (.error e, fs)
              | .ok newVersion =>
                  bumpStage bump rest
                    (fs.write pjPath (Content.pluginJson { j with version := some newVersion }))
          | none => bumpStage bump rest (fs.write pjPath (Content.pluginJson j))
      | some _ => (.error .jsonErr, fs)

/-- Updates the first registry entry with the given name in place
(`iter_mut().find`). -/
def updateFirstEntry : List PluginEntry → String → (PluginEntry → PluginEntry) →
    List PluginEntry
  | [], _, _ => []
  | e :: rest, name, f =>
      if e.name = name then f e :: rest
      else e :: updateFirstEntry rest name f

/-- Association lookup in the rename-target map. -/
def renameLookup : List (String × String) → String → Option String
  | [], _ => none
  | (k, v) :: rest, key => if k = key then some v else renameLookup rest key

/-- Entry-update, rename-collision and per-plugin validation stage of
`update_plugins` (lines 108-160), performed on the in-memory document. -/
def updateEntriesStage (names : List String) (fs : FS) :
    List (String × FPath) → Marketplace → List (String × String) → List String →
    Except Err (Marketplace × List String)
  | [], m, _, updated => .ok (m, updated)
  | (name, pluginPath) :: rest, m, renameTargets, updated =>
      let pjPath := pluginJsonPathOf pluginPath
      match fs.read pjPath with
      | none => .error (.other ("Cannot read plugin.json for " ++ name))
      | some (Content.pluginJson manifest) =>
          let renameCheck : Except Err (List (String × String)) :=
            match manifest.name with
            | some newName =>
                if newName ≠ name then
                  match renameLookup renameTargets newName with
                  | some prev =>
                      .error (.other ("Plugins " ++ prev ++ " and " ++ name ++
                        " would both be renamed to " ++ newName))
                  | none =>
                      if m.plugins.any (fun p =>
                          decide (p.name = newName) && !(names.contains p.name)) then
                        .error (.other ("Plugin " ++ name ++ " would be renamed to " ++
                          newName ++ " which conflicts with an existing plugin"))
                      else .ok ((newName, name) :: renameTargets)
                else .ok renameTargets
            | none => .ok renameTargets
          match renameCheck with
          | .error e => .error e
          | .ok renameTargets1 =>
              let m1 := { m with plugins := updateFirstEntry m.plugins name (fun e =>
                  let e1 := { e with tags := manifest.keywords }
                  match manifest.name with
                  | some newName =>
                      if newName ≠ name then { e1 with name := newName } else e1
                  | none => e1) }
              if (validatePlugin fs pluginPath).hasErrors then
                .error (.atomicRollback ("Plugin validation failed for " ++ name ++
                  " after update"))
              else updateEntriesStage names fs rest m1 renameTargets1 (updated ++ [name])
      | some _ => .error .jsonErr

/-- Creates the per-plugin guards, in batch order (lines 68-75). -/
def mkPluginGuards (epoch : Nat) : List (String × FPath) → FS → List AtomicGuard × FS
  | [], fs => ([], fs)
  | (_, pluginPath) :: rest, fs =>
      let acq := AtomicGuard.new fs (pluginJsonPathOf pluginPath) epoch
      let p := mkPluginGuards epoch rest acq.2
      (acq.1 :: p.1, p.2)

/-- Drops a list of guards in order (the drop order of a Rust `Vec`). -/
def dropGuards : List AtomicGuard → FS → FS
  | [], fs => fs
  | g :: rest, fs => dropGuards rest (g.drop fs)

/-- Commits a list of guards in order (`for g in plugin_guards`); with a
reliable delete this loop cannot fail. -/
def commitGuards : List AtomicGuard → FS → Except Err FS
  | [], fs => .ok fs
  | g :: rest, fs =>
      match (g.commit fs true).2 with
      | .error e => .error e
      | .ok fs1 => commitGuards rest fs1

/-- The stages of `update_plugins` that run after all guards are in place:
version bumps, in-memory entry updates and collision checks, registry
version bump, write-back, and final validation. -/
def updateBody (names : List String) (bumpType : Option String) (cfg : Config) (fs : FS)
    (pluginPaths : List (String × FPath)) : Except Err (List String) × FS :=
  let afterBump : Except Err Unit × FS :=
    match bumpType with
    | some bump => bumpStage bump pluginPaths fs
    | none => (.ok (), fs)
  match afterBump with
  | (.error e, fs1) => (.error e, fs1)
  | (.ok _, fs1) =>
      match fs1.read cfg.marketplace_path with
      | none => (.error .ioErr, fs1)
      | some (Content.marketplace m) =>
          match updateEntriesStage names fs1 pluginPaths m [] [] with
          | .error e => (.error e, fs1)
          | .ok (m1, updated) =>
              match bumpPatch m1.version with
              | .error e => (.error e, fs1)
              | .ok newVersion =>
                  let m2 := { m1 with version := newVersion }
                  let fs2 := fs1.write cfg.marketplace_path (Content.marketplace m2)
                  match loadMarketplaceConfig fs2 cfg.marketplace_path with
                  | .error e => (.error e, fs2)
                  | .ok updatedCfg =>
                      if (validateMarketplace fs2 updatedCfg true).hasErrors then
                        (.error (.atomicRollback "Marketplace validation failed after update"),
                          fs2)
                      else (.ok updated, fs2)
      | some _ => (.error .jsonErr, fs1)

/-- The resolved plugin paths of an update batch (`ops/update.rs`,
lines 52-63).  The lookup uses a default entry only in the branch made
unreachable by the existence check performed before it (the Rust code
unwraps there). -/
def pluginPathsOf (names : List String) (cfg : Config) : List (String × FPath) :=
  names.map (fun n =>
    (n, resolveSource ((findEntry cfg.marketplace.plugins n).getD
      { name := n, source := "", tags := [] }).source cfg))

/-- Model of `ops/update.rs` `update_plugins`. -/
def updatePlugins (names : List String) (bumpType : Option String) (cfg : Config)
    (epoch : Nat) (fs : FS) : Except Err (List String) × FS :=
  if names.isEmpty then (.ok [], fs)
  else
    match names.find? (fun n => !((entryNames cfg.marketplace).contains n)) with
    | some missing => (.error (.pluginNotFound missing), fs)
    | none =>
        let pluginPaths := pluginPathsOf names cfg
        let mpAcq := AtomicGuard.new fs cfg.marketplace_path epoch
        let guardsAcq :=
          if bumpType.isSome then mkPluginGuards epoch pluginPaths mpAcq.2
          else ([], mpAcq.2)
        match updateBody names bumpType cfg guardsAcq.2 pluginPaths with
        | (.error e, fs3) => (.error e, mpAcq.1.drop (dropGuards guardsAcq.1 fs3))
        | (.ok updated, fs3) =>
            match (mpAcq.1.commit fs3 true).2 with
            | .error e => (.error e, dropGuards guardsAcq.1 fs3)
            | .ok fs4 =>
                match commitGuards guardsAcq.1 fs4 with
                | .error e => (.error e, fs4)
                | .ok fs5 => (.ok updated, fs5)

/-- How a name conflict is resolved for one planned entry
(`ops/add.rs`, `ConflictResolution`). -/
inductive ConflictResolution where
  | skip : ConflictResolution
  | replace : ConflictResolution
  | rename (newName : String) : ConflictResolution
deriving DecidableEq, Repr

/-- One planned add action (`ops/add.rs`, `AddAction`). -/
structure AddAction where
  plugin_path : FPath
  plugin_name : String
  source : String
  isExternal : Bool
  conflict : Option ConflictResolution
deriving DecidableEq, Repr

/-- The plan produced by the planning phase (`ops/add.rs`, `AddPlan`). -/
structure AddPlan where
  actions : List AddAction
deriving DecidableEq, Repr

/-- True when the action was resolved to `Skip`. -/
def isSkipRes : Option ConflictResolution → Bool
  | some ConflictResolution.skip => true
  | _ => false

/-- True when the action was resolved to `Replace`. -/
def isReplaceRes : Option ConflictResolution → Bool
  | some ConflictResolution.replace => true
  | _ => false

/-- The name an action is reported under in a dry run: the generated name
for a rename, the plugin name otherwise (lines 201-207). -/
def actionReportedName (a : AddAction) : String :=
  match a.conflict with
  | some (ConflictResolution.rename newName) => newName
  | _ => a.plugin_name

/-- Model of `read_plugin_manifest` (`ops/add.rs`, lines 312-326). -/
def readPluginManifest (fs : FS) (pluginPath : FPath) : Except Err PluginJson :=
  match fs.read (pluginJsonPathOf pluginPath) with
  | none =>
      .error (.other ("Cannot read plugin.json at " ++ pathStr (pluginJsonPathOf pluginPath)))
  | some (Content.pluginJson j) => .ok j
  | some _ => .error .jsonErr

/-- External-plugin copy stage of `execute_add` (lines 211-235). -/
def copyExternalsStage (cfg : Config) : List AddAction → FS → Except Err Unit × FS
  | [], fs => (.ok (), fs)
  | a :: rest, fs =>
      if a.isExternal && !(strStartsWith a.source "/") then
        let targetName := match a.conflict with
          | some (ConflictResolution.rename newName) => newName
          | _ => a.source
        let targetDir := cfg.plugin_root_abs ++ parseComps targetName
        if fs.pathExists targetDir && !(isReplaceRes a.conflict) then
          (.error (.other ("Target directory already exists: " ++ pathStr targetDir)), fs)
        else
          let fs1 := if isReplaceRes a.conflict && fs.pathExists targetDir then
              fs.removeDirAll targetDir else fs
          copyExternalsStage cfg rest (fs1.copyTree a.plugin_path targetDir)
      else copyExternalsStage cfg rest fs

/-- Registry mutation loop of `execute_add` (lines 245-272). -/
def addEntriesLoop (fs : FS) : List AddAction → Marketplace → List String →
    Except Err (Marketplace × List String)
  | [], m, added => .ok (m, added)
  | a :: rest, m, added =>
      match a.conflict with
      | some ConflictResolution.skip => addEntriesLoop fs rest m added
      | _ =>
          let step : String × String × Marketplace :=
            match a.conflict with
            | some ConflictResolution.replace =>
                (a.plugin_name, a.source,
                  { m with plugins :=
                      m.plugins.filter (fun p => !(decide (p.name = a.plugin_name))) })
            | some (ConflictResolution.rename newName) => (newName, newName, m)
            | _ => (a.plugin_name, a.source, m)
          match readPluginManifest fs a.plugin_path with
          | .error e => .error e
          | .ok manifest =>
              addEntriesLoop fs rest
                { step.2.2 with plugins := step.2.2.plugins ++
                    [{ name := step.1, source := step.2.1, tags := manifest.keywords }] }
                (added ++ [step.1])

/-- Guarded registry-update stage of `execute_add` (lines 240-295). -/
def executeAddBody (effective : List AddAction) (cfg : Config) (fs : FS) :
    Except Err (List String) × FS :=
  match fs.read cfg.marketplace_path with
  | none => (.error .ioErr, fs)
  | some (Content.marketplace m) =>
      match addEntriesLoop fs effective m [] with
      | .error e => (.error e, fs)
      | .ok (m1, added) =>
          match bumpPatch m1.version with
          | .error e => (.error e, fs)
          | .ok newVersion =>
              let m2 := { m1 with version := newVersion }
              let fs1 := fs.write cfg.marketplace_path (Content.marketplace m2)
              match loadMarketplaceConfig fs1 cfg.marketplace_path with
              | .error e => (.error e, fs1)
              | .ok updatedCfg =>
                  if (validateMarketplace fs1 updatedCfg true).hasErrors then
                    (.error (.atomicRollback "Final validation failed after add"), fs1)
                  else (.ok added, fs1)
  | some _ => (.error .jsonErr, fs)

/-- Model of `ops/add.rs` `execute_add`. -/
def executeAdd (plan : AddPlan) (cfg : Config) (dryRun : Bool) (epoch : Nat) (fs : FS) :
    Except Err (List String) × FS :=
  let effective := plan.actions.filter (fun a => !(isSkipRes a.conflict))
  if effective.isEmpty then (.ok [], fs)
  else if dryRun then (.ok (effective.map actionReportedName), fs)
  else
    match copyExternalsStage cfg effective fs with
    | (.error e, fs1) => (.error e, fs1)
    | (.ok _, fs1) =>
        let acq := AtomicGuard.new fs1 cfg.marketplace_path epoch
        match executeAddBody effective cfg acq.2 with
        | (.error e, fs3) => (.error e, acq.1.drop fs3)
        | (.ok added, fs3) =>
            match (acq.1.commit fs3 true).2 with
            | .error e => (.error e, fs3)
            | .ok fs4 => (.ok added, fs4)

end Souk

namespace Souk

theorem digitChar_toNat {d : Nat} (h : d < 10) : (Nat.digitChar d).toNat = 48 + d := by
  interval_cases d <;> rfl

theorem digitChar_isDigit {d : Nat} (h : d < 10) : (Nat.digitChar d).isDigit = true := by
  interval_cases d <;> rfl

theorem toDecimalAux_ne_nil (fuel n : Nat) : toDecimalAux (fuel + 1) n ≠ [] := by
  unfold toDecimalAux
  split <;> simp

theorem natRepr_data_ne_nil (n : Nat) : (natRepr n).data ≠ [] :=
  toDecimalAux_ne_nil n n

theorem decode_toDecimalAux :
    ∀ fuel n : Nat, n < 10 ^ fuel → decodeDec (toDecimalAux fuel n) = n := by
  intro fuel
  induction fuel with
  | zero =>
      intro n h
      simp only [pow_zero, Nat.lt_one_iff] at h
      subst h
      rfl
  | succ fuel ih =>
      intro n h
      by_cases hn : n < 10
      · simp only [toDecimalAux, if_pos hn, decodeDec, List.foldl_cons, List.foldl_nil]
        rw [digitChar_toNat hn]
        omega
      · have hdiv : n / 10 < 10 ^ fuel := by
          rw [Nat.div_lt_iff_lt_mul (by norm_num)]
          calc n < 10 ^ (fuel + 1) := h
            _ = 10 ^ fuel * 10 := by ring
        have hrec := ih (n / 10) hdiv
        simp only [toDecimalAux, if_neg hn, decodeDec, List.foldl_append, List.foldl_cons,
          List.foldl_nil]
        simp only [decodeDec] at hrec
        rw [hrec, digitChar_toNat (Nat.mod_lt _ (by norm_num))]
        omega

theorem decode_natRepr (n : Nat) : decodeDec (natRepr n).data = n := by
  have hlt : n < 10 ^ (n + 1) := by
    calc n < 10 ^ n := Nat.lt_pow_self (by norm_num) n
      _ ≤ 10 ^ (n + 1) := Nat.pow_le_pow_right (by norm_num) (Nat.le_succ n)
  exact decode_toDecimalAux (n + 1) n hlt

theorem natRepr_injective : Function.Injective natRepr := by
  intro m n h
  have hd : (natRepr m).data = (natRepr n).data := by rw [h]
  have := congrArg decodeDec hd
  rwa [decode_natRepr, decode_natRepr] at this

theorem mem_toDecimalAux_isDigit :
    ∀ fuel n c, c ∈ toDecimalAux fuel n → c.isDigit = true := by
  intro fuel
  induction fuel with
  | zero => intro n c hc; simp [toDecimalAux] at hc
  | succ fuel ih =>
      intro n c hc
      by_cases hn : n < 10
      · simp only [toDecimalAux, if_pos hn, List.mem_singleton] at hc
        subst hc
        exact digitChar_isDigit hn
      · simp only [toDecimalAux, if_neg hn, List.mem_append, List.mem_singleton] at hc
        rcases hc with hc | hc
        · exact ih _ _ hc
        · subst hc
          exact digitChar_isDigit (Nat.mod_lt _ (by norm_num))

theorem mem_natRepr_isDigit {n : Nat} {c : Char} (hc : c ∈ (natRepr n).data) :
    c.isDigit = true :=
  mem_toDecimalAux_isDigit (n + 1) n c hc

theorem dropWhile_cons_head (p : Char → Bool) :
    ∀ (l : List Char) (a : Char) (t : List Char), l.dropWhile p = a :: t → p a = false := by
  intro l
  induction l with
  | nil => intro a t h; simp [List.dropWhile] at h
  | cons b l ih =>
      intro a t h
      by_cases hb : p b
      · rw [List.dropWhile_cons_of_pos hb] at h
        exact ih a t h
      · rw [List.dropWhile_cons_of_neg hb] at h
        cases h
        simpa using hb

theorem splitExtChars_eq_some {cs stem ext : List Char}
    (h : splitExtChars cs = (stem, some ext)) :
    cs = stem ++ '.' :: ext ∧ ∀ c ∈ ext, c ≠ '.' := by
  unfold splitExtChars at h
  split at h
  · exact absurd (congrArg Prod.snd h) (by simp)
  · rename_i hdots
    dsimp only at h
    rcases hmatch : cs.reverse.dropWhile (fun c => c ≠ '.') with _ | ⟨d, beforeRev⟩
    · rw [hmatch] at h
      exact absurd (congrArg Prod.snd h) (by simp)
    · rw [hmatch] at h
      dsimp only at h
      by_cases hb : beforeRev = []
      · rw [if_pos hb] at h
        exact absurd (congrArg Prod.snd h) (by simp)
      · rw [if_neg hb] at h
        have hstem : stem = beforeRev.reverse := (congrArg Prod.fst h).symm
        have hext : ext = (cs.reverse.takeWhile (fun c => c ≠ '.')).reverse := by
          have := congrArg Prod.snd h
          simpa using this.symm
        have hd : d = '.' := by
          have := dropWhile_cons_head (fun c => c ≠ '.') cs.reverse d beforeRev hmatch
          simpa using this
        have hsplit : cs.reverse.takeWhile (fun c => c ≠ '.') ++ (d :: beforeRev) = cs.reverse := by
          have h0 := List.takeWhile_append_dropWhile (fun c : Char => decide (c ≠ '.')) cs.reverse
          rw [hmatch] at h0
          exact h0
        constructor
        · have hcs : cs = (cs.reverse.takeWhile (fun c => c ≠ '.') ++ (d :: beforeRev)).reverse := by
            rw [hsplit, List.reverse_reverse]
          rw [hcs, List.reverse_append, List.reverse_cons, hstem, hext, hd]
          simp
        · intro c hc
          rw [hext] at hc
          rw [List.mem_reverse] at hc
          have := List.mem_takeWhile_imp hc
          simpa using this

theorem splitExtChars_eq_none {cs stem : List Char}
    (h : splitExtChars cs = (stem, none)) : stem = cs := by
  unfold splitExtChars at h
  split at h
  · exact (congrArg Prod.fst h).symm
  · dsimp only at h
    rcases hmatch : cs.reverse.dropWhile (fun c => c ≠ '.') with _ | ⟨d, beforeRev⟩
    · rw [hmatch] at h
      exact (congrArg Prod.fst h).symm
    · rw [hmatch] at h
      dsimp only at h
      by_cases hb : beforeRev = []
      · rw [if_pos hb] at h
        exact (congrArg Prod.fst h).symm
      · rw [if_neg hb] at h
        exact absurd (congrArg Prod.snd h) (by simp)

theorem backupFileName_of_ext {file : String} {stem ext : List Char} (epoch : Nat)
    (h : splitExtChars file.data = (stem, some ext)) :
    backupFileName file epoch = file ++ ".bak." ++ natRepr epoch := by
  have hrec := (splitExtChars_eq_some h).1
  unfold backupFileName
  rw [h]
  simp only [Option.getD_some]
  unfold withExtChars
  rw [if_neg (by simp)]
  apply String.ext
  show stem ++ '.' :: (ext ++ '.' :: 'b' :: 'a' :: 'k' :: '.' :: (natRepr epoch).data) =
    (file ++ ".bak." ++ natRepr epoch).data
  rw [String.data_append, String.data_append, hrec]
  simp [String.data]

theorem backupFileName_data_eq (file : String) (epoch : Nat) :
    (backupFileName file epoch).data =
      withExtChars (splitExtChars file.data).1
        ((splitExtChars file.data).2.getD [] ++
          ('.' :: 'b' :: 'a' :: 'k' :: '.' :: (natRepr epoch).data)) := rfl

theorem backupFileName_length_gt (file : String) (epoch : Nat) :
    file.data.length < (backupFileName file epoch).data.length := by
  have hne := natRepr_data_ne_nil epoch
  have hpos : 0 < (natRepr epoch).data.length := List.length_pos.mpr hne
  rw [backupFileName_data_eq]
  rcases hpair : splitExtChars file.data with ⟨stem, sndv⟩
  dsimp only
  rcases sndv with _ | ext
  · have hstem := splitExtChars_eq_none hpair
    subst hstem
    dsimp only [Option.getD_none]
    rw [List.nil_append]
    unfold withExtChars
    rw [if_neg (by simp)]
    simp only [List.length_append, List.length_cons]
    omega
  · have hrec := (splitExtChars_eq_some hpair).1
    dsimp only [Option.getD_some]
    unfold withExtChars
    rw [if_neg (by simp), hrec]
    simp only [List.length_append, List.length_cons]
    omega

theorem backupFileName_ne (file : String) (epoch : Nat) :
    backupFileName file epoch ≠ file := by
  intro h
  have := congrArg (fun s => s.data.length) h
  have hlt := backupFileName_length_gt file epoch
  simp only at this
  omega

theorem backupPath_ne (p : FPath) (epoch : Nat) : backupPath p epoch ≠ p := by
  cases p with
  | nil => simp [backupPath]
  | cons a l =>
      intro h
      have h1 := congrArg List.getLast? h
      rw [backupPath] at h1
      rw [List.getLast?_concat] at h1
      have h2 : (a :: l).getLast? = some ((a :: l).getLastD "") := by
        rw [List.getLastD_eq_getLast?]
        cases hgl : (a :: l).getLast? with
        | none =>
            have : (a :: l) ≠ [] := by simp
            rw [List.getLast?_eq_getLast (a :: l) this] at hgl
            cases hgl
        | some x => rfl
      rw [h2] at h1
      exact backupFileName_ne _ epoch (Option.some.inj h1)

end Souk

namespace Souk

theorem lookupFile_eraseFile (l : List (FPath × Content)) (p q : FPath) :
    lookupFile (eraseFile l p) q = if q = p then none else lookupFile l q := by
  induction l with
  | nil => simp [eraseFile, lookupFile]
  | cons e rest ih =>
      rcases e with ⟨r, c⟩
      by_cases hr : r = p
      · rw [eraseFile, if_pos hr, ih, lookupFile]
        by_cases hq : q = p
        · simp [hq]
        · rw [if_neg hq, if_neg hq, if_neg (by rw [hr]; exact fun h => hq (h ▸ hr ▸ rfl))]
      · rw [eraseFile, if_neg hr, lookupFile, lookupFile]
        by_cases hrq : r = q
        · subst hrq
          rw [if_pos rfl, if_pos rfl, if_neg (fun h => hr h)]
        · rw [if_neg hrq, if_neg hrq, ih]

theorem FS.read_write (fs : FS) (p q : FPath) (c : Content) :
    (fs.write p c).read q = if q = p then some c else fs.read q := by
  show lookupFile ((p, c) :: eraseFile fs.files p) q = _
  rw [lookupFile]
  by_cases hq : q = p
  · rw [if_pos hq.symm, if_pos hq]
  · rw [if_neg (fun h => hq h.symm), if_neg hq, lookupFile_eraseFile, if_neg hq]
    rfl

theorem FS.read_removeFile (fs : FS) (p q : FPath) :
    (fs.removeFile p).read q = if q = p then none else fs.read q := by
  show lookupFile (eraseFile fs.files p) q = _
  exact lookupFile_eraseFile fs.files p q

theorem FS.read_write_self (fs : FS) (p : FPath) (c : Content) :
    (fs.write p c).read p = some c := by
  rw [FS.read_write, if_pos rfl]

end Souk

namespace Souk

/-- Candidate name with a numeric suffix, as `format!("{base}-{counter}")`
builds it (`version.rs`, line 108). -/
def nameCandidate (base : String) (k : Nat) : String :=
  base ++ "-" ++ natRepr k

theorem nameCandidate_injective (base : String) :
    Function.Injective (nameCandidate base) := by
  intro j k h
  apply natRepr_injective
  apply String.ext
  have hd := congrArg String.data h
  simp only [nameCandidate, String.data_append] at hd
  exact List.append_cancel_left hd

theorem exists_free_candidate (base : String) (existing : List String) :
    ∃ k, nameCandidate base (2 + k) ∉ existing := by
  by_contra hcon
  push_neg at hcon
  have hinj : Function.Injective (fun k : Nat => nameCandidate base (2 + k)) := by
    intro a b hab
    have := nameCandidate_injective base hab
    omega
  have hinf : {s : String | s ∈ existing}.Infinite :=
    Set.infinite_of_injective_forall_mem hinj hcon
  exact hinf (List.finite_toSet existing)

/-- Model of `version.rs` `generate_unique_name`: if the base name is taken,
the first free candidate among `base-2`, `base-3`, ... is returned.  The
search loop of the original terminates because the candidates are pairwise
distinct while the existing-name set is finite; `Nat.find` picks exactly the
first free suffix that loop would reach, starting at 2. -/
def generate_unique_name (base : String) (existing : List String) : String :=
  if base ∈ existing then
    nameCandidate base (2 + Nat.find (exists_free_candidate base existing))
  else base

/-- Model of `resolve_plugin_input` (`ops/add.rs`, lines 299-309).  As with
`resolve_plugin`, the direct-path branch is modelled for absolute inputs
(relative direct paths would go through the working directory, which is
outside the model). -/
def resolvePluginInput (fs : FS) (input : String) (cfg : Config) : Except Err FPath :=
  let inputPath := parseComps input
  if strStartsWith input "/" && fs.isDir inputPath then canonicalizePath fs inputPath
  else resolvePlugin fs input cfg

/-- Per-input planning loop of `plan_add` (`ops/add.rs`, lines 91-164):
resolution failures and validation failures are collected and the loop
continues; a missing manifest name aborts; an `abort`-strategy conflict or
an invalid strategy aborts the whole batch.  Error strings are abbreviated
relative to the original, which interpolates I/O error details. -/
def planAddLoop (fs : FS) (cfg : Config) (strategy : String) (noCopy : Bool)
    (existingNames : List String) :
    List String → List AddAction → List String →
    Except Err (List AddAction × List String)
  | [], actions, errors => .ok (actions, errors)
  | input :: rest, actions, errors =>
      match resolvePluginInput fs input cfg with
      | .error _ =>
          planAddLoop fs cfg strategy noCopy existingNames rest actions
            (errors ++ ["Plugin not found: " ++ input])
      | .ok pluginPath =>
          match readPluginManifest fs pluginPath with
          | .error e => .error e
          | .ok manifest =>
              match manifest.name with
              | none =>
                  .error (.other ("Plugin has no name in plugin.json: " ++ pathStr pluginPath))
              | some pluginName =>
                  if (validatePlugin fs pluginPath).hasErrors then
                    planAddLoop fs cfg strategy noCopy existingNames rest actions
                      (errors ++ ["Plugin validation failed: " ++ pluginName])
                  else
                    let ps := pluginPathToSource fs pluginPath cfg
                    let finalSource := if !ps.2 && !noCopy then pluginName else ps.1
                    let conflictRes : Except Err (Option ConflictResolution) :=
                      if existingNames.contains pluginName then
                        if strategy = "abort" then .error (.pluginAlreadyExists pluginName)
                        else if strategy = "skip" then .ok (some ConflictResolution.skip)
                        else if strategy = "replace" then .ok (some ConflictResolution.replace)
                        else if strategy = "rename" then
                          .ok (some (ConflictResolution.rename
                            (generate_unique_name pluginName existingNames)))
                        else .error (.other ("Invalid conflict strategy: " ++ strategy))
                      else .ok none
                    match conflictRes with
                    | .error e => .error e
                    | .ok conflict =>
                        planAddLoop fs cfg strategy noCopy existingNames rest
                          (actions ++
                            [AddAction.mk pluginPath pluginName finalSource (!ps.2) conflict])
                          errors

/-- Model of `ops/add.rs` `plan_add`, in the same state-passing convention
as the execution pipelines.  The function contains no filesystem mutation,
so the state is threaded through unchanged from every exit. -/
def planAdd (fs : FS) (inputs : List String) (cfg : Config) (strategy : String)
    (noCopy : Bool) : Except Err AddPlan × FS :=
  let existingNames := entryNames cfg.marketplace
  (match planAddLoop fs cfg strategy noCopy existingNames inputs [] [] with
   | .error e => .error e
   | .ok (actions, errors) =>
       if !errors.isEmpty then .error (.other (joinWith "; " errors))
       else .ok ⟨actions⟩, fs)

end Souk

namespace Souk

theorem list_contains_iff {α : Type} [BEq α] [LawfulBEq α] (l : List α) (a : α) :
    l.contains a = true ↔ a ∈ l :=
  List.elem_iff

theorem lookupFile_eraseFilesUnder (l : List (FPath × Content)) (p q : FPath) :
    lookupFile (eraseFilesUnder l p) q =
      if p.isPrefixOf q then none else lookupFile l q := by
  induction l with
  | nil => simp [eraseFilesUnder, lookupFile]
  | cons e rest ih =>
      rcases e with ⟨r, c⟩
      by_cases hr : p.isPrefixOf r
      · rw [eraseFilesUnder, if_pos hr, ih, lookupFile]
        by_cases hq : p.isPrefixOf q
        · rw [if_pos hq, if_pos hq]
        · rw [if_neg hq, if_neg hq]
          rw [if_neg (fun h : r = q => hq (h ▸ hr))]
      · rw [eraseFilesUnder, if_neg hr, lookupFile, lookupFile]
        by_cases hrq : r = q
        · subst hrq
          rw [if_pos rfl, if_pos rfl, if_neg (fun h => hr h)]
        · rw [if_neg hrq, if_neg hrq, ih]

theorem FS.read_removeDirAll (fs : FS) (p q : FPath) :
    (fs.removeDirAll p).read q = if p.isPrefixOf q then none else fs.read q := by
  show lookupFile (eraseFilesUnder fs.files p) q = _
  exact lookupFile_eraseFilesUnder fs.files p q

theorem FS.dirs_write (fs : FS) (p : FPath) (c : Content) :
    (fs.write p c).dirs = fs.dirs := rfl

theorem FS.dirs_removeFile (fs : FS) (p : FPath) :
    (fs.removeFile p).dirs = fs.dirs := rfl

theorem FS.isDir_write (fs : FS) (p q : FPath) (c : Content) :
    (fs.write p c).isDir q = fs.isDir q := rfl

theorem FS.isDir_removeFile (fs : FS) (p q : FPath) :
    (fs.removeFile p).isDir q = fs.isDir q := rfl

theorem mem_eraseDirsUnder (ds : List FPath) (p d : FPath) :
    d ∈ eraseDirsUnder ds p ↔ d ∈ ds ∧ p.isPrefixOf d = false := by
  induction ds with
  | nil => simp [eraseDirsUnder]
  | cons e rest ih =>
      by_cases he : p.isPrefixOf e
      · rw [eraseDirsUnder, if_pos he, ih]
        constructor
        · rintro ⟨hm, hp⟩
          exact ⟨List.mem_cons_of_mem e hm, hp⟩
        · rintro ⟨hm, hp⟩
          rcases List.mem_cons.mp hm with rfl | hm
          · rw [he] at hp; cases hp
          · exact ⟨hm, hp⟩
      · rw [eraseDirsUnder, if_neg he, List.mem_cons, ih, List.mem_cons]
        constructor
        · rintro (rfl | ⟨hm, hp⟩)
          · exact ⟨Or.inl rfl, Bool.eq_false_iff.mpr he⟩
          · exact ⟨Or.inr hm, hp⟩
        · rintro ⟨rfl | hm, hp⟩
          · exact Or.inl rfl
          · exact Or.inr ⟨hm, hp⟩

theorem list_contains_eq_false {α : Type} [BEq α] [LawfulBEq α] (l : List α) (a : α)
    (h : a ∉ l) : l.contains a = false := by
  rcases hb : l.contains a with _ | _
  · rfl
  · exact absurd ((list_contains_iff _ _).mp hb) h

theorem FS.isDir_removeDirAll (fs : FS) (p q : FPath) :
    (fs.removeDirAll p).isDir q =
      (fs.isDir q && !(p.isPrefixOf q)) := by
  have hiff := mem_eraseDirsUnder fs.dirs p q
  show (eraseDirsUnder fs.dirs p).contains q = (fs.dirs.contains q && !(p.isPrefixOf q))
  rcases hmem : fs.dirs.contains q with _ | _
  · have h1 : q ∉ fs.dirs := fun hm => by
      rw [(list_contains_iff _ _).mpr hm] at hmem
      cases hmem
    have h2 : q ∉ eraseDirsUnder fs.dirs p := fun hm => h1 (hiff.mp hm).1
    rw [list_contains_eq_false _ _ h2]
    simp
  · rcases hpre : p.isPrefixOf q with _ | _
    · have h2 : q ∈ eraseDirsUnder fs.dirs p :=
        hiff.mpr ⟨(list_contains_iff _ _).mp hmem, hpre⟩
      rw [(list_contains_iff _ _).mpr h2]
      simp
    · have h2 : q ∉ eraseDirsUnder fs.dirs p := fun hm => by
        have := (hiff.mp hm).2
        rw [hpre] at this
        cases this
      rw [list_contains_eq_false _ _ h2]
      simp

theorem FS.journal_write (fs : FS) (p : FPath) (c : Content) :
    (fs.write p c).journal = fs.journal ++ [Event.wrote p c] := rfl

theorem FS.journal_removeFile (fs : FS) (p : FPath) :
    (fs.removeFile p).journal = fs.journal ++ [Event.removedFile p] := rfl

theorem journal_mono_write (fs : FS) (p : FPath) (c : Content) (e : Event)
    (h : e ∈ fs.journal) : e ∈ (fs.write p c).journal :=
  List.mem_append_left _ h

theorem journal_mono_drop (g : AtomicGuard) (fs : FS) (e : Event)
    (h : e ∈ fs.journal) : e ∈ (g.drop fs).journal := by
  unfold AtomicGuard.drop
  split
  · exact h
  · split
    · split
      · exact List.mem_append_left _ (List.mem_append_left _ h)
      · exact h
    · exact h

theorem journal_mono_dropGuards (gs : List AtomicGuard) (fs : FS) (e : Event)
    (h : e ∈ fs.journal) : e ∈ (dropGuards gs fs).journal := by
  induction gs generalizing fs with
  | nil => exact h
  | cons g rest ih => exact ih _ (journal_mono_drop g fs e h)

end Souk

namespace Souk

theorem takeWhile_eq_self_of_all (p : Char → Bool) (l : List Char)
    (h : ∀ c ∈ l, p c = true) : l.takeWhile p = l :=
  List.takeWhile_eq_self_iff.mpr h

theorem splitDots_of_no_dot (a : List Char) (ha : ∀ c ∈ a, c ≠ '.') :
    splitDots a = [a] := by
  induction a with
  | nil => rfl
  | cons c rest ih =>
      have hc : c ≠ '.' := ha c (List.mem_cons_self c rest)
      rw [splitDots, if_neg hc, ih (fun x hx => ha x (List.mem_cons_of_mem c hx))]

theorem splitDots_append_dot (a rest : List Char) (ha : ∀ c ∈ a, c ≠ '.') :
    splitDots (a ++ '.' :: rest) = a :: splitDots rest := by
  induction a with
  | nil => simp [splitDots]
  | cons c tail ih =>
      have hc : c ≠ '.' := ha c (List.mem_cons_self c tail)
      rw [List.cons_append, splitDots, if_neg hc,
        ih (fun x hx => ha x (List.mem_cons_of_mem c hx))]

theorem isDigit_ne_sep {c : Char} (h : c.isDigit = true) :
    c ≠ '.' ∧ c ≠ '-' ∧ c ≠ '+' := by
  refine ⟨fun hc => ?_, fun hc => ?_, fun hc => ?_⟩ <;>
    (subst hc; exact absurd h (by decide))

theorem decodeDigits_natRepr (n : Nat) : decodeDigits (natRepr n).data = some n := by
  have hrun : isDigitRun (natRepr n).data = true := by
    unfold isDigitRun
    have h1 : (natRepr n).data.isEmpty = false := by
      rcases hd : (natRepr n).data with _ | _
      · exact absurd hd (natRepr_data_ne_nil n)
      · rfl
    rw [h1]
    simp only [Bool.not_false, Bool.true_and]
    rw [List.all_eq_true]
    exact fun c hc => mem_natRepr_isDigit hc
  unfold decodeDigits
  rw [if_pos hrun, decode_natRepr]

theorem parseSemver_semverString (a b c : Nat) :
    parseSemver (semverString a b c) = some (a, b, c) := by
  have hdata : (semverString a b c).data =
      (natRepr a).data ++ '.' :: ((natRepr b).data ++ '.' :: (natRepr c).data) := by
    unfold semverString
    simp only [String.data_append]
    simp [String.data]
  have hmemdig : ∀ x ∈ (semverString a b c).data, x.isDigit = true ∨ x = '.' := by
    intro x hx
    rw [hdata] at hx
    simp only [List.mem_append, List.mem_cons] at hx
    rcases hx with hx | hx | hx | hx | hx
    · exact Or.inl (mem_natRepr_isDigit hx)
    · exact Or.inr hx
    · exact Or.inl (mem_natRepr_isDigit hx)
    · exact Or.inr hx
    · exact Or.inl (mem_natRepr_isDigit hx)
  unfold parseSemver
  dsimp only
  have htake : (semverString a b c).data.takeWhile (fun x => x ≠ '-' && x ≠ '+') =
      (semverString a b c).data := by
    apply takeWhile_eq_self_of_all
    intro x hx
    rcases hmemdig x hx with hd | hd
    · rcases isDigit_ne_sep hd with ⟨_, h2, h3⟩
      simp [h2, h3]
    · subst hd
      decide
  rw [htake, hdata]
  have hnd : ∀ n : Nat, ∀ x ∈ (natRepr n).data, x ≠ '.' := fun n x hx =>
    (isDigit_ne_sep (mem_natRepr_isDigit hx)).1
  rw [splitDots_append_dot _ _ (hnd a), splitDots_append_dot _ _ (hnd b),
    splitDots_of_no_dot _ (hnd c)]
  simp only [decodeDigits_natRepr]

end Souk

namespace Souk

/-- C1: for every file that exists with content `b` when the guard is
acquired, dropping the guard without commit restores the file to exactly
`b` and removes the backup file, regardless of how the file was modified
between acquisition and drop. -/
theorem guard_drop_restores_original (fs fs1 : FS) (p : FPath) (b : Content) (epoch : Nat)
    (hread : fs.read p = some b)
    (hmod : ∀ q : FPath, q ≠ p → fs1.read q = ((AtomicGuard.new fs p epoch).2).read q) :
    ((AtomicGuard.new fs p epoch).1.drop fs1).read p = some b ∧
      ((AtomicGuard.new fs p epoch).1.drop fs1).read (backupPath p epoch) = none := by
  have hne := backupPath_ne p epoch
  have hnew : AtomicGuard.new fs p epoch =
      ({ originalPath := p, backupPath? := some (backupPath p epoch), committed := false },
        fs.write (backupPath p epoch) b) := by
    unfold AtomicGuard.new
    rw [hread]
  have hb1 : fs1.read (backupPath p epoch) = some b := by
    rw [hmod (backupPath p epoch) hne, hnew]
    exact FS.read_write_self fs (backupPath p epoch) b
  rw [hnew]
  have hdrop : (AtomicGuard.mk p (some (backupPath p epoch)) false).drop fs1 =
      (fs1.write p b).removeFile (backupPath p epoch) := by
    simp only [AtomicGuard.drop, hb1]
    rw [if_neg (by decide)]
  dsimp only
  rw [hdrop]
  constructor
  · rw [FS.read_removeFile, if_neg (fun h => hne h.symm), FS.read_write_self]
  · rw [FS.read_removeFile, if_pos rfl]

/-- Filesystem of the `guard_drop_restores_original` witness scenario. -/
def guardWitnessFS : FS :=
  ⟨[(["f.json"], Content.text "orig")], [], []⟩

/-- The same filesystem after acquisition and a destructive overwrite of the
guarded file. -/
def guardWitnessFS1 : FS :=
  ((AtomicGuard.new guardWitnessFS ["f.json"] 5).2).write ["f.json"] (Content.text "corrupted")

theorem guard_drop_restores_original_witness :
    guardWitnessFS.read ["f.json"] = some (Content.text "orig") ∧
    ((AtomicGuard.new guardWitnessFS ["f.json"] 5).1.drop guardWitnessFS1).read ["f.json"] =
      some (Content.text "orig") ∧
    ((AtomicGuard.new guardWitnessFS ["f.json"] 5).1.drop guardWitnessFS1).read
      (backupPath ["f.json"] 5) = none := by
  have hmod : ∀ q : FPath, q ≠ ["f.json"] →
      guardWitnessFS1.read q = ((AtomicGuard.new guardWitnessFS ["f.json"] 5).2).read q := by
    intro q hq
    show (((AtomicGuard.new guardWitnessFS ["f.json"] 5).2).write ["f.json"]
      (Content.text "corrupted")).read q = _
    rw [FS.read_write, if_neg hq]
  have h := guard_drop_restores_original guardWitnessFS guardWitnessFS1 ["f.json"]
    (Content.text "orig") 5 rfl hmod
  exact ⟨rfl, h.1, h.2⟩

/-- C8 (amended): for every existing file whose name has an extension, the
backup is the sibling named `<name>.bak.<epoch>`; an extensionless file name
instead yields `<name>..bak.<epoch>` with a doubled dot, as shown by the
counterexample. -/
theorem backup_sibling_name_with_extension (fs : FS) (p : FPath) (c : Content) (epoch : Nat)
    (stem ext : List Char)
    (hread : fs.read p = some c)
    (hext : splitExtChars (p.getLastD "").data = (stem, some ext)) :
    (AtomicGuard.new fs p epoch).1.backupPath? =
      some (p.dropLast ++ [p.getLastD "" ++ ".bak." ++ natRepr epoch]) ∧
    ((AtomicGuard.new fs p epoch).2).read
      (p.dropLast ++ [p.getLastD "" ++ ".bak." ++ natRepr epoch]) = some c := by
  have hname : backupFileName (p.getLastD "") epoch =
      p.getLastD "" ++ ".bak." ++ natRepr epoch := backupFileName_of_ext epoch hext
  have hbp : backupPath p epoch =
      p.dropLast ++ [p.getLastD "" ++ ".bak." ++ natRepr epoch] := by
    unfold backupPath
    rw [hname]
  have hnew : AtomicGuard.new fs p epoch =
      ({ originalPath := p, backupPath? := some (backupPath p epoch), committed := false },
        fs.write (backupPath p epoch) c) := by
    unfold AtomicGuard.new
    rw [hread]
  rw [hnew]
  constructor
  · show some (backupPath p epoch) = _
    rw [hbp]
  · show (fs.write (backupPath p epoch) c).read _ = some c
    rw [← hbp]
    exact FS.read_write_self fs _ c

theorem backup_sibling_name_witness :
    (FS.mk [(["marketplace.json"], Content.text "data")] [] []).read ["marketplace.json"] =
      some (Content.text "data") ∧
    splitExtChars ("marketplace.json").data = ("marketplace".data, some ("json").data) ∧
    (AtomicGuard.new (FS.mk [(["marketplace.json"], Content.text "data")] [] [])
        ["marketplace.json"] 42).1.backupPath? = some [("marketplace.json" : String) ++ ".bak." ++ natRepr 42] := by
  refine ⟨rfl, by decide, ?_⟩
  have h := backup_sibling_name_with_extension
    (FS.mk [(["marketplace.json"], Content.text "data")] [] []) ["marketplace.json"]
    (Content.text "data") 42 ("marketplace".data) ("json".data) rfl (by decide)
  exact h.1

/-- C8 counterexample: for the extensionless file name `config`, the backup
file name carries a doubled dot, `config..bak.42`, not `config.bak.42` as
the claim states for all paths. -/
theorem backup_sibling_name_counterexample :
    backupFileName "config" 42 = "config..bak.42" ∧
    backupFileName "config" 42 ≠ "config.bak.42" ∧
    (AtomicGuard.new (FS.mk [(["config"], Content.text "data")] [] [])
        ["config"] 42).1.backupPath? = some ["config..bak.42"] := by
  refine ⟨rfl, by decide, rfl⟩

/-- C9: `commit` sets the committed flag before attempting the backup
deletion, so when that deletion fails and commit returns an I/O error, the
subsequent drop of the guard performs no restore: the filesystem (the
mutated original and the stale backup) is left exactly as it was. -/
theorem commit_failure_skips_restore (g : AtomicGuard) (fs : FS) (bak : FPath)
    (hb : g.backupPath? = some bak) (hex : (fs.read bak).isSome = true) :
    (g.commit fs false).1.committed = true ∧
    (g.commit fs false).2 = Except.error Err.ioErr ∧
    (g.commit fs false).1.drop fs = fs := by
  have hc : g.commit fs false = ({ g with committed := true }, Except.error Err.ioErr) := by
    unfold AtomicGuard.commit
    rw [hb]
    dsimp only
    rw [if_pos hex, if_neg (by decide)]
  rw [hc]
  refine ⟨rfl, rfl, ?_⟩
  unfold AtomicGuard.drop
  rw [if_pos rfl]

theorem commit_failure_skips_restore_witness :
    (AtomicGuard.mk ["f"] (some ["f..bak.1"]) false).backupPath? = some ["f..bak.1"] ∧
    ((FS.mk [(["f"], Content.text "mutated"), (["f..bak.1"], Content.text "orig")] [] []).read
      ["f..bak.1"]).isSome = true ∧
    ((AtomicGuard.mk ["f"] (some ["f..bak.1"]) false).commit
      (FS.mk [(["f"], Content.text "mutated"), (["f..bak.1"], Content.text "orig")] [] [])
      false).2 = Except.error Err.ioErr ∧
    ((AtomicGuard.mk ["f"] (some ["f..bak.1"]) false).commit
      (FS.mk [(["f"], Content.text "mutated"), (["f..bak.1"], Content.text "orig")] [] [])
      false).1.drop
      (FS.mk [(["f"], Content.text "mutated"), (["f..bak.1"], Content.text "orig")] [] []) =
      FS.mk [(["f"], Content.text "mutated"), (["f..bak.1"], Content.text "orig")] [] [] := by
  have h := commit_failure_skips_restore (AtomicGuard.mk ["f"] (some ["f..bak.1"]) false)
    (FS.mk [(["f"], Content.text "mutated"), (["f..bak.1"], Content.text "orig")] [] [])
    ["f..bak.1"] rfl rfl
  exact ⟨rfl, rfl, h.2.1, h.2.2⟩

end Souk

namespace Souk

/-- C6: for a name already present in the existing-name set, the rename
resolution returns the first free candidate in the sequence `n-2`, `n-3`,
`n-4`, ... (suffix 1 is never tried, and numeric gaps are filled); in
particular, with existing names `foo` and `foo-3`, resolving `foo` yields
`foo-2`. -/
theorem generate_unique_name_first_free (base : String) (existing : List String)
    (h : base ∈ existing) :
    (∃ k, 2 ≤ k ∧ generate_unique_name base existing = nameCandidate base k ∧
      nameCandidate base k ∉ existing ∧
      ∀ j, 2 ≤ j → j < k → nameCandidate base j ∈ existing) ∧
    generate_unique_name "foo" ["foo", "foo-3"] = "foo-2" := by
  constructor
  · refine ⟨2 + Nat.find (exists_free_candidate base existing), by omega, ?_, ?_, ?_⟩
    · unfold generate_unique_name
      rw [if_pos h]
    · exact Nat.find_spec (exists_free_candidate base existing)
    · intro j h2 hlt
      have hmin := Nat.find_min (exists_free_candidate base existing)
        (show j - 2 < Nat.find (exists_free_candidate base existing) by omega)
      have hj : 2 + (j - 2) = j := by omega
      rw [hj] at hmin
      exact not_not.mp hmin
  · unfold generate_unique_name
    rw [if_pos (by decide)]
    have h0 : Nat.find (exists_free_candidate "foo" ["foo", "foo-3"]) = 0 := by
      rw [Nat.find_eq_zero]
      decide
    rw [h0]
    decide

theorem generate_unique_name_first_free_witness :
    ("foo" : String) ∈ ["foo", "foo-3"] ∧
    generate_unique_name "foo" ["foo", "foo-3"] = "foo-2" := by
  exact ⟨by decide, (generate_unique_name_first_free "foo" ["foo", "foo-3"] (by decide)).2⟩

/-- C7: validating a plugin directory whose manifest parses to the empty
JSON object (and which has no extends file) produces exactly the three
missing-field error diagnostics for name, version and description, and none
of them is the invalid-semver diagnostic. -/
theorem validate_plugin_empty_manifest (fs : FS) (p : FPath)
    (hdir : fs.isDir p = true)
    (hclaude : fs.isDir (p ++ [".claude-plugin"]) = true)
    (hpj : fs.read (pluginJsonPathOf p) = some (Content.pluginJson ⟨none, none, none, []⟩))
    (hext : fs.read (extendsJsonPathOf p) = none) :
    (validatePlugin fs p).diagnostics =
      [((Diagnostic.mkError "Missing or null required field: name").withPath
          (pluginJsonPathOf p)).withField "name",
       ((Diagnostic.mkError "Missing or null required field: version").withPath
          (pluginJsonPathOf p)).withField "version",
       ((Diagnostic.mkError "Missing or null required field: description").withPath
          (pluginJsonPathOf p)).withField "description"] ∧
    (validatePlugin fs p).errorCount = 3 ∧
    ∀ d ∈ (validatePlugin fs p).diagnostics,
      ("Invalid semver version").data.isPrefixOf d.message.data = false := by
  have hpj2 : fs.read ((p ++ [".claude-plugin"]) ++ ["plugin.json"]) =
      some (Content.pluginJson ⟨none, none, none, []⟩) := by
    rw [List.append_assoc]
    exact hpj
  have hmain : (validatePlugin fs p).diagnostics =
      [((Diagnostic.mkError "Missing or null required field: name").withPath
          (pluginJsonPathOf p)).withField "name",
       ((Diagnostic.mkError "Missing or null required field: version").withPath
          (pluginJsonPathOf p)).withField "version",
       ((Diagnostic.mkError "Missing or null required field: description").withPath
          (pluginJsonPathOf p)).withField "description"] := by
    have h1 : (!(fs.isDir p)) = false := by rw [hdir]; rfl
    have h2 : (!(fs.isDir (p ++ [".claude-plugin"]))) = false := by rw [hclaude]; rfl
    unfold validatePlugin
    rw [h1, if_neg (by decide)]
    try dsimp only
    rw [h2, if_neg (by decide)]
    try dsimp only
    rw [hpj2]
    try dsimp only
    rw [if_pos (show (none : Option String).isNone = true from rfl),
      if_pos (show (none : Option String).isNone = true from rfl),
      if_pos (show (none : Option String).isNone = true from rfl)]
    unfold validateExtends
    try dsimp only
    rw [hext]
    show [_] ++ [_] ++ [_] ++ [] ++ [] = _
    simp [pluginJsonPathOf, List.append_assoc]
  refine ⟨hmain, ?_, ?_⟩
  · unfold ValidationResult.errorCount
    rw [hmain]
    rfl
  · intro d hd
    rw [hmain] at hd
    simp only [List.mem_cons, List.not_mem_nil, or_false] at hd
    rcases hd with rfl | rfl | rfl <;> rfl

theorem validate_plugin_empty_manifest_witness :
    (FS.mk [(["p", ".claude-plugin", "plugin.json"],
        Content.pluginJson ⟨none, none, none, []⟩)]
      [["p"], ["p", ".claude-plugin"]] []).isDir ["p"] = true ∧
    (validatePlugin
      (FS.mk [(["p", ".claude-plugin", "plugin.json"],
          Content.pluginJson ⟨none, none, none, []⟩)]
        [["p"], ["p", ".claude-plugin"]] []) ["p"]).errorCount = 3 := by
  have h := validate_plugin_empty_manifest
    (FS.mk [(["p", ".claude-plugin", "plugin.json"],
        Content.pluginJson ⟨none, none, none, []⟩)]
      [["p"], ["p", ".claude-plugin"]] []) ["p"] rfl rfl rfl rfl
  exact ⟨rfl, h.2.1⟩

end Souk

namespace Souk

/-- C2: executing any add plan with the dry-run flag set performs no
filesystem mutation whatsoever (the state, including its journal, is
returned unchanged) and reports exactly the names that would be added:
Skip-resolved entries are omitted and Rename-resolved entries appear under
their generated new names. -/
theorem execute_add_dry_run_is_pure (plan : AddPlan) (cfg : Config) (epoch : Nat) (fs : FS) :
    executeAdd plan cfg true epoch fs =
      (.ok ((plan.actions.filter (fun a => !(isSkipRes a.conflict))).map actionReportedName),
        fs) := by
  unfold executeAdd
  dsimp only
  by_cases he : (plan.actions.filter (fun a => !(isSkipRes a.conflict))).isEmpty
  · rw [if_pos he]
    have hnil : plan.actions.filter (fun a => !(isSkipRes a.conflict)) = [] :=
      List.isEmpty_iff.mp he
    rw [hnil]
    rfl
  · rw [if_neg he, if_pos rfl]

/-- C5: planning an add whose input resolves to a plugin named `x` that is
already registered, under the `abort` strategy, fails with the
already-exists error naming `x`, and the filesystem state — in particular
the registry file — is returned unchanged. -/
theorem plan_add_abort_keeps_registry (fs : FS) (cfg : Config) (input x : String)
    (pluginPath : FPath) (j : PluginJson)
    (hres : resolvePluginInput fs input cfg = .ok pluginPath)
    (hman : readPluginManifest fs pluginPath = .ok j)
    (hname : j.name = some x)
    (hval : (validatePlugin fs pluginPath).hasErrors = false)
    (hx : x ∈ entryNames cfg.marketplace) :
    planAdd fs [input] cfg "abort" false = (.error (.pluginAlreadyExists x), fs) ∧
    (planAdd fs [input] cfg "abort" false).2.read cfg.marketplace_path =
      fs.read cfg.marketplace_path := by
  have hcontains : (entryNames cfg.marketplace).contains x = true :=
    (list_contains_iff _ _).mpr hx
  have hloop : planAddLoop fs cfg "abort" false (entryNames cfg.marketplace) [input] [] [] =
      .error (.pluginAlreadyExists x) := by
    unfold planAddLoop
    rw [hres]
    try dsimp only
    rw [hman]
    try dsimp only
    rw [hname]
    try dsimp only
    rw [hval, if_neg (by decide)]
    try dsimp only
    rw [if_pos hcontains, if_pos (show ("abort" : String) = "abort" from rfl)]
  have hplan : planAdd fs [input] cfg "abort" false = (.error (.pluginAlreadyExists x), fs) := by
    unfold planAdd
    dsimp only
    rw [hloop]
  exact ⟨hplan, by rw [hplan]⟩

/-- Registry of the abort-conflict witness scenario: one entry named
`existing`. -/
def abortMarketplace : Marketplace :=
  ⟨"0.1.0", some "./plugins", [⟨"existing", "existing", []⟩]⟩

/-- Configuration of the abort-conflict witness scenario. -/
def abortCfg : Config :=
  ⟨["proj", ".claude-plugin", "marketplace.json"], ["proj"], ["proj", "plugins"],
    abortMarketplace⟩

/-- Filesystem of the abort-conflict witness scenario: the registry file and
a valid plugin directory `existing` under the plugin root. -/
def abortFS : FS :=
  ⟨[(["proj", ".claude-plugin", "marketplace.json"], Content.marketplace abortMarketplace),
    (["proj", "plugins", "existing", ".claude-plugin", "plugin.json"],
      Content.pluginJson ⟨some "existing", some "1.0.0", some "A test plugin", ["test"]⟩)],
   [["proj"], ["proj", ".claude-plugin"], ["proj", "plugins"],
    ["proj", "plugins", "existing"], ["proj", "plugins", "existing", ".claude-plugin"]],
   []⟩

theorem plan_add_abort_keeps_registry_witness :
    ("existing" : String) ∈ entryNames abortCfg.marketplace ∧
    planAdd abortFS ["existing"] abortCfg "abort" false =
      (.error (.pluginAlreadyExists "existing"), abortFS) := by
  have h := plan_add_abort_keeps_registry abortFS abortCfg "existing" "existing"
    ["proj", "plugins", "existing"]
    ⟨some "existing", some "1.0.0", some "A test plugin", ["test"]⟩
    rfl rfl rfl rfl (by decide)
  exact ⟨by decide, h.1⟩

end Souk

namespace Souk

theorem hasErrors_of_mem (r : ValidationResult) (d : Diagnostic)
    (hd : d ∈ r.diagnostics) (he : d.severity = Severity.error) :
    r.hasErrors = true :=
  List.any_eq_true.mpr ⟨d, hd, by simp [he]⟩

theorem validatePlugin_missing_version_hasErrors (fs : FS) (p : FPath) (j : PluginJson)
    (hdir : fs.isDir p = true) (hclaude : fs.isDir (p ++ [".claude-plugin"]) = true)
    (hpj : fs.read (pluginJsonPathOf p) = some (Content.pluginJson j))
    (hver : j.version = none) :
    (validatePlugin fs p).hasErrors = true := by
  have hpj2 : fs.read ((p ++ [".claude-plugin"]) ++ ["plugin.json"]) =
      some (Content.pluginJson j) := by
    rw [List.append_assoc]
    exact hpj
  have h1 : (!(fs.isDir p)) = false := by rw [hdir]; rfl
  have h2 : (!(fs.isDir (p ++ [".claude-plugin"]))) = false := by rw [hclaude]; rfl
  have hmem : ((Diagnostic.mkError "Missing or null required field: version").withPath
      ((p ++ [".claude-plugin"]) ++ ["plugin.json"])).withField "version" ∈
      (validatePlugin fs p).diagnostics := by
    unfold validatePlugin
    rw [h1, if_neg (by decide)]
    try dsimp only
    rw [h2, if_neg (by decide)]
    try dsimp only
    rw [hpj2]
    try dsimp only
    rw [hver]
    simp
  exact hasErrors_of_mem _ _ hmem rfl

/-- C10: updating with a version bump a plugin whose manifest parses but has
no string `version` field silently skips the version rewrite — the bump
stage raises no error and still writes the document back unchanged, and the
missing version only surfaces later as the per-plugin validation rollback
error. -/
theorem update_missing_version_silently_skipped (cfg : Config) (fs : FS) (name : String)
    (entry : PluginEntry) (pluginPath : FPath) (j : PluginJson) (m : Marketplace) (epoch : Nat)
    (hmem : name ∈ entryNames cfg.marketplace)
    (hentry : findEntry cfg.marketplace.plugins name = some entry)
    (hpathres : resolveSource entry.source cfg = pluginPath)
    (hmp : fs.read cfg.marketplace_path = some (Content.marketplace m))
    (hpj : fs.read (pluginJsonPathOf pluginPath) = some (Content.pluginJson j))
    (hver : j.version = none)
    (hname : j.name = some name)
    (hdir : fs.isDir pluginPath = true)
    (hclaude : fs.isDir (pluginPath ++ [".claude-plugin"]) = true)
    (hd1 : backupPath cfg.marketplace_path epoch ≠ pluginJsonPathOf pluginPath)
    (hd3 : backupPath (pluginJsonPathOf pluginPath) epoch ≠ cfg.marketplace_path)
    (hd4 : pluginJsonPathOf pluginPath ≠ cfg.marketplace_path) :
    (updatePlugins [name] (some "patch") cfg epoch fs).1 =
      .error (.atomicRollback ("Plugin validation failed for " ++ name ++ " after update")) ∧
    Event.wrote (pluginJsonPathOf pluginPath) (Content.pluginJson j) ∈
      (updatePlugins [name] (some "patch") cfg epoch fs).2.journal := by
  have hcontains : (entryNames cfg.marketplace).contains name = true :=
    (list_contains_iff _ _).mpr hmem
  have hfind : ([name].find? (fun n => !((entryNames cfg.marketplace).contains n))) = none := by
    simp [List.find?, hmem]
  have hpp : pluginPathsOf [name] cfg = [(name, pluginPath)] := by
    unfold pluginPathsOf
    simp [hentry, hpathres]
  -- acquisition of the marketplace guard
  have hmpacq : AtomicGuard.new fs cfg.marketplace_path epoch =
      ({ originalPath := cfg.marketplace_path,
         backupPath? := some (backupPath cfg.marketplace_path epoch), committed := false },
        fs.write (backupPath cfg.marketplace_path epoch) (Content.marketplace m)) := by
    unfold AtomicGuard.new
    rw [hmp]
  set bakMp := backupPath cfg.marketplace_path epoch with hbakMp
  set bakPj := backupPath (pluginJsonPathOf pluginPath) epoch with hbakPj
  set fsA := fs.write bakMp (Content.marketplace m) with hfsA
  -- the plugin guard
  have hreadA : fsA.read (pluginJsonPathOf pluginPath) = some (Content.pluginJson j) := by
    rw [hfsA, FS.read_write, if_neg (fun h => hd1 h.symm)]
    exact hpj
  have hpjacq : AtomicGuard.new fsA (pluginJsonPathOf pluginPath) epoch =
      ({ originalPath := pluginJsonPathOf pluginPath, backupPath? := some bakPj,
         committed := false },
        fsA.write bakPj (Content.pluginJson j)) := by
    unfold AtomicGuard.new
    rw [hreadA]
  set fsB := fsA.write bakPj (Content.pluginJson j) with hfsB
  have hguards : mkPluginGuards epoch [(name, pluginPath)] fsA =
      ([{ originalPath := pluginJsonPathOf pluginPath, backupPath? := some bakPj,
          committed := false }], fsB) := by
    unfold mkPluginGuards
    rw [hpjacq]
    rfl
  -- bump stage: the version is not a string, so the document is written back unchanged
  have hreadB : fsB.read (pluginJsonPathOf pluginPath) = some (Content.pluginJson j) := by
    rw [hfsB, FS.read_write, if_neg (fun h => (backupPath_ne _ epoch) h.symm)]
    exact hreadA
  set fsC := fsB.write (pluginJsonPathOf pluginPath) (Content.pluginJson j) with hfsC
  have hbump : bumpStage "patch" [(name, pluginPath)] fsB = (.ok (), fsC) := by
    unfold bumpStage
    try dsimp only
    rw [hreadB]
    try dsimp only
    rw [hver]
    rfl
  -- the marketplace is re-read successfully
  have hreadC : fsC.read cfg.marketplace_path = some (Content.marketplace m) := by
    rw [hfsC, FS.read_write, if_neg (fun h => hd4 h.symm),
      hfsB, FS.read_write, if_neg (fun h => hd3 h.symm),
      hfsA, FS.read_write, if_neg (fun h => (backupPath_ne _ epoch) h.symm)]
    exact hmp
  -- the entry-update stage hits the per-plugin validation failure
  have hreadCpj : fsC.read (pluginJsonPathOf pluginPath) = some (Content.pluginJson j) :=
    FS.read_write_self fsB _ _
  have hdirC : fsC.isDir pluginPath = true := by
    rw [hfsC, FS.isDir_write, hfsB, FS.isDir_write, hfsA, FS.isDir_write]
    exact hdir
  have hclaudeC : fsC.isDir (pluginPath ++ [".claude-plugin"]) = true := by
    rw [hfsC, FS.isDir_write, hfsB, FS.isDir_write, hfsA, FS.isDir_write]
    exact hclaude
  have hvalC : (validatePlugin fsC pluginPath).hasErrors = true :=
    validatePlugin_missing_version_hasErrors fsC pluginPath j hdirC hclaudeC hreadCpj hver
  have hstage : updateEntriesStage [name] fsC [(name, pluginPath)] m [] [] =
      .error (.atomicRollback ("Plugin validation failed for " ++ name ++ " after update")) := by
    unfold updateEntriesStage
    try dsimp only
    rw [hreadCpj]
    try dsimp only
    rw [hname]
    try dsimp only
    rw [if_neg (fun h : name ≠ name => h rfl)]
    try dsimp only
    rw [if_pos hvalC]
  -- assemble the pipeline
  have hbody : updateBody [name] (some "patch") cfg fsB [(name, pluginPath)] =
      (.error (.atomicRollback ("Plugin validation failed for " ++ name ++ " after update")),
        fsC) := by
    unfold updateBody
    try dsimp only
    rw [hbump]
    try dsimp only
    rw [hreadC]
    try dsimp only
    rw [hstage]
  have hrun : updatePlugins [name] (some "patch") cfg epoch fs =
      (.error (.atomicRollback ("Plugin validation failed for " ++ name ++ " after update")),
        AtomicGuard.drop
          { originalPath := cfg.marketplace_path, backupPath? := some bakMp, committed := false }
          (dropGuards
            [{ originalPath := pluginJsonPathOf pluginPath, backupPath? := some bakPj,
               committed := false }] fsC)) := by
    unfold updatePlugins
    rw [if_neg (show ¬(([name] : List String).isEmpty = true) from by simp), hfind]
    try dsimp only
    rw [hpp, hmpacq]
    try dsimp only
    rw [hguards, if_pos (show (some ("patch" : String)).isSome = true from rfl)]
    try dsimp only
    rw [hbody]
  rw [hrun]
  refine ⟨rfl, ?_⟩
  apply journal_mono_drop
  apply journal_mono_dropGuards
  show _ ∈ (fsB.write (pluginJsonPathOf pluginPath) (Content.pluginJson j)).journal
  rw [FS.journal_write]
  exact List.mem_append_right _ (List.mem_singleton.mpr rfl)

end Souk

namespace Souk

/-- Registry of the missing-version witness scenario. -/
def missingVerMarketplace : Marketplace :=
  ⟨"0.1.0", some "./plugins", [⟨"alpha", "alpha", ["old"]⟩]⟩

/-- Configuration of the missing-version witness scenario. -/
def missingVerCfg : Config :=
  ⟨["proj", ".claude-plugin", "marketplace.json"], ["proj"], ["proj", "plugins"],
    missingVerMarketplace⟩

/-- A plugin manifest that parses but has no string `version` field. -/
def missingVerPj : PluginJson :=
  ⟨some "alpha", none, some "test plugin", ["original"]⟩

/-- Filesystem of the missing-version witness scenario. -/
def missingVerFS : FS :=
  ⟨[(["proj", ".claude-plugin", "marketplace.json"], Content.marketplace missingVerMarketplace),
    (["proj", "plugins", "alpha", ".claude-plugin", "plugin.json"],
      Content.pluginJson missingVerPj)],
   [["proj"], ["proj", ".claude-plugin"], ["proj", "plugins"],
    ["proj", "plugins", "alpha"], ["proj", "plugins", "alpha", ".claude-plugin"]],
   []⟩

theorem update_missing_version_silently_skipped_witness :
    missingVerPj.version = none ∧
    (updatePlugins ["alpha"] (some "patch") missingVerCfg 7 missingVerFS).1 =
      .error (.atomicRollback ("Plugin validation failed for " ++ "alpha" ++ " after update")) ∧
    Event.wrote (pluginJsonPathOf ["proj", "plugins", "alpha"])
      (Content.pluginJson missingVerPj) ∈
      (updatePlugins ["alpha"] (some "patch") missingVerCfg 7 missingVerFS).2.journal := by
  have h := update_missing_version_silently_skipped missingVerCfg missingVerFS "alpha"
    ⟨"alpha", "alpha", ["old"]⟩ ["proj", "plugins", "alpha"] missingVerPj
    missingVerMarketplace 7 (by decide) rfl rfl rfl rfl rfl rfl rfl rfl
    (by decide) (by decide) (by decide)
  exact ⟨rfl, h.1, h.2⟩

/-- Registry of the rename-collision scenario: plugins `alpha` and `beta`. -/
def renameMarketplace : Marketplace :=
  ⟨"0.1.0", some "./plugins",
    [⟨"alpha", "alpha", ["old"]⟩, ⟨"beta", "beta", ["old"]⟩]⟩

/-- Configuration of the rename-collision scenario. -/
def renameCfg : Config :=
  ⟨["proj", ".claude-plugin", "marketplace.json"], ["proj"], ["proj", "plugins"],
    renameMarketplace⟩

/-- Both plugins declare the same new name `gamma` in their manifests. -/
def gammaManifest : PluginJson :=
  ⟨some "gamma", some "1.0.0", some "test plugin", ["original"]⟩

/-- Path of alpha's own manifest. -/
def alphaManifestPath : FPath :=
  ["proj", "plugins", "alpha", ".claude-plugin", "plugin.json"]

/-- Path of beta's own manifest. -/
def betaManifestPath : FPath :=
  ["proj", "plugins", "beta", ".claude-plugin", "plugin.json"]

/-- Filesystem of the rename-collision scenario. -/
def renameFS : FS :=
  ⟨[(["proj", ".claude-plugin", "marketplace.json"], Content.marketplace renameMarketplace),
    (alphaManifestPath, Content.pluginJson gammaManifest),
    (betaManifestPath, Content.pluginJson gammaManifest)],
   [["proj"], ["proj", ".claude-plugin"], ["proj", "plugins"],
    ["proj", "plugins", "alpha"], ["proj", "plugins", "alpha", ".claude-plugin"],
    ["proj", "plugins", "beta"], ["proj", "plugins", "beta", ".claude-plugin"]],
   []⟩

/-- C4 counterexample: with a version bump requested, the intra-batch rename
collision is indeed a hard error, but alpha's manifest was already written
with its bumped version (content differing from the file's pre-call
content) before the error was reported — so the error is not reported
before every manifest write. -/
theorem update_rename_collision_counterexample :
    (updatePlugins ["alpha", "beta"] (some "patch") renameCfg 7 renameFS).1 =
      .error (.other "Plugins alpha and beta would both be renamed to gamma") ∧
    Event.wrote alphaManifestPath
      (Content.pluginJson ⟨some "gamma", some "1.0.1", some "test plugin", ["original"]⟩) ∈
      (updatePlugins ["alpha", "beta"] (some "patch") renameCfg 7 renameFS).2.journal ∧
    renameFS.read alphaManifestPath = some (Content.pluginJson gammaManifest) ∧
    (Content.pluginJson ⟨some "gamma", some "1.0.1", some "test plugin", ["original"]⟩ : Content)
      ≠ Content.pluginJson gammaManifest := by
  refine ⟨rfl, by decide, rfl, by decide⟩

end Souk

namespace Souk

/-- C4 (amended): a rename collision in an update batch is a hard error.
When no version bump was requested, the error is reported before any
content-changing write: the run's only mutations are the backup copy and
the restore of identical marketplace bytes, and every file reads back
unchanged.  When a version bump is requested, the plugins' manifest version
rewrites are written to disk before the collision check (see the
counterexample), and the error then rolls every guarded file back to its
pre-call content, as the representative scenario conjuncts show. -/
theorem update_rename_collision_amended (names : List String) (cfg : Config) (epoch : Nat)
    (fs : FS) (m : Marketplace) (msg : String)
    (hnotempty : names.isEmpty = false)
    (hex : ∀ n ∈ names, n ∈ entryNames cfg.marketplace)
    (hmp : fs.read cfg.marketplace_path = some (Content.marketplace m))
    (hbak : fs.read (backupPath cfg.marketplace_path epoch) = none)
    (hcol : updateEntriesStage names ((AtomicGuard.new fs cfg.marketplace_path epoch).2)
        (pluginPathsOf names cfg) m [] [] = .error (.other msg)) :
    ((updatePlugins names none cfg epoch fs).1 = .error (.other msg) ∧
     (updatePlugins names none cfg epoch fs).2.journal =
       fs.journal ++
         [Event.wrote (backupPath cfg.marketplace_path epoch) (Content.marketplace m),
          Event.wrote cfg.marketplace_path (Content.marketplace m),
          Event.removedFile (backupPath cfg.marketplace_path epoch)] ∧
     ∀ q : FPath, (updatePlugins names none cfg epoch fs).2.read q = fs.read q) ∧
    ((updatePlugins ["alpha", "beta"] (some "patch") renameCfg 7 renameFS).2.read
        alphaManifestPath = some (Content.pluginJson gammaManifest) ∧
     (updatePlugins ["alpha", "beta"] (some "patch") renameCfg 7 renameFS).2.read
        betaManifestPath = some (Content.pluginJson gammaManifest) ∧
     (updatePlugins ["alpha", "beta"] (some "patch") renameCfg 7 renameFS).2.read
        renameCfg.marketplace_path = some (Content.marketplace renameMarketplace)) := by
  have hmpne := backupPath_ne cfg.marketplace_path epoch
  have hmpacq : AtomicGuard.new fs cfg.marketplace_path epoch =
      ({ originalPath := cfg.marketplace_path,
         backupPath? := some (backupPath cfg.marketplace_path epoch), committed := false },
        fs.write (backupPath cfg.marketplace_path epoch) (Content.marketplace m)) := by
    unfold AtomicGuard.new
    rw [hmp]
  set bak := backupPath cfg.marketplace_path epoch with hbakdef
  set fsA := fs.write bak (Content.marketplace m) with hfsA
  rw [hmpacq] at hcol
  have hfind : (names.find? (fun n => !((entryNames cfg.marketplace).contains n))) = none := by
    rw [List.find?_eq_none]
    intro x hx hpx
    have := (list_contains_iff _ _).mpr (hex x hx)
    rw [this] at hpx
    cases hpx
  have hreadAmp : fsA.read cfg.marketplace_path = some (Content.marketplace m) := by
    rw [hfsA, FS.read_write, if_neg (fun h => hmpne h.symm)]
    exact hmp
  have hbody : updateBody names none cfg fsA (pluginPathsOf names cfg) =
      (.error (.other msg), fsA) := by
    unfold updateBody
    try dsimp only
    rw [hreadAmp]
    try dsimp only
    rw [hcol]
  have hreadAbak : fsA.read bak = some (Content.marketplace m) :=
    FS.read_write_self fs bak (Content.marketplace m)
  set fsFinal := (fsA.write cfg.marketplace_path (Content.marketplace m)).removeFile bak
    with hfsFinal
  have hdrop : AtomicGuard.drop
      { originalPath := cfg.marketplace_path, backupPath? := some bak, committed := false }
      fsA = fsFinal := by
    simp only [AtomicGuard.drop, hreadAbak]
    rw [if_neg (by decide)]
  have hrun : updatePlugins names none cfg epoch fs = (.error (.other msg), fsFinal) := by
    unfold updatePlugins
    rw [if_neg (show ¬(names.isEmpty = true) from by rw [hnotempty]; decide), hfind]
    try dsimp only
    rw [hmpacq]
    try dsimp only
    rw [if_neg (show ¬((none : Option String).isSome = true) from by decide)]
    try dsimp only
    rw [hbody]
    try dsimp only
    rw [show dropGuards [] fsA = fsA from rfl, hdrop]
  refine ⟨⟨by rw [hrun], ?_, ?_⟩, by decide, by decide, by decide⟩
  · rw [hrun]
    show ((fsA.write cfg.marketplace_path (Content.marketplace m)).removeFile bak).journal = _
    rw [FS.journal_removeFile, FS.journal_write, hfsA, FS.journal_write]
    simp [List.append_assoc]
  · intro q
    rw [hrun]
    show ((fsA.write cfg.marketplace_path (Content.marketplace m)).removeFile bak).read q = _
    rw [FS.read_removeFile]
    by_cases hqb : q = bak
    · rw [if_pos hqb, hqb, hbak]
    · rw [if_neg hqb, FS.read_write]
      by_cases hqm : q = cfg.marketplace_path
      · rw [if_pos hqm, hqm, hmp]
      · rw [if_neg hqm, hfsA, FS.read_write, if_neg hqb]

theorem update_rename_collision_amended_witness :
    (["alpha", "beta"] : List String).isEmpty = false ∧
    (updatePlugins ["alpha", "beta"] none renameCfg 7 renameFS).1 =
      .error (.other "Plugins alpha and beta would both be renamed to gamma") ∧
    (∀ q : FPath, (updatePlugins ["alpha", "beta"] none renameCfg 7 renameFS).2.read q =
      renameFS.read q) := by
  have h := update_rename_collision_amended ["alpha", "beta"] renameCfg 7 renameFS
    renameMarketplace "Plugins alpha and beta would both be renamed to gamma"
    rfl (by decide) rfl rfl rfl
  exact ⟨rfl, h.1.1, h.1.2.2⟩

end Souk

namespace Souk

theorem parentPath_of_ne_nil (p : FPath) (h : p ≠ []) : parentPath p = some p.dropLast := by
  cases p with
  | nil => exact absurd rfl h
  | cons a l => rfl

theorem isPrefixOf_self (l : FPath) : l.isPrefixOf l = true :=
  List.isPrefixOf_iff_prefix.mpr (List.prefix_refl l)

theorem findEntry_isSome_of_mem (plugins : List PluginEntry) (n : String)
    (h : n ∈ plugins.map (fun p => p.name)) : ∃ e, findEntry plugins n = some e := by
  induction plugins with
  | nil => simp at h
  | cons e rest ih =>
      by_cases he : e.name = n
      · exact ⟨e, by rw [findEntry, if_pos he]⟩
      · have : n ∈ rest.map (fun p => p.name) := by
          rcases List.mem_cons.mp h with h1 | h1
          · exact absurd h1.symm he
          · exact h1
        obtain ⟨e2, he2⟩ := ih this
        exact ⟨e2, by rw [findEntry, if_neg he, he2]⟩

theorem hasErrors_eq_false_of_warnings (r : ValidationResult)
    (h : ∀ d ∈ r.diagnostics, d.severity = Severity.warning) : r.hasErrors = false := by
  unfold ValidationResult.hasErrors
  rcases hb : r.diagnostics.any (fun d => decide (d.severity = Severity.error)) with _ | _
  · rfl
  · obtain ⟨d, hd, hdec⟩ := List.any_eq_true.mp hb
    have hde := of_decide_eq_true hdec
    rw [h d hd] at hde
    cases hde

theorem checkCompleteness_warnings_only (fs : FS) (cfg : Config)
    (hs : mpSourceBasenames cfg.marketplace = []) :
    ∀ d ∈ (checkCompleteness fs cfg).diagnostics, d.severity = Severity.warning := by
  intro d hd
  unfold checkCompleteness at hd
  dsimp only at hd
  rw [hs] at hd
  simp only [List.filterMap_nil, List.append_nil] at hd
  obtain ⟨p, _, rfl⟩ := List.mem_map.mp hd
  rfl

theorem removeScan_refuses (fs : FS) (cfg : Config) (root : FPath) :
    ∀ names : List String,
    (∀ n ∈ names, n ∈ entryNames cfg.marketplace) →
    (∃ n ∈ names, ∃ entry, findEntry cfg.marketplace.plugins n = some entry ∧
      fs.isDir (resolveSource entry.source cfg) = true ∧
      root.isPrefixOf (resolveSource entry.source cfg) = false) →
    ∃ resolved, removeScan fs cfg false root names =
      .error (.other (refuseDeleteMsg resolved root)) := by
  intro names
  induction names with
  | nil =>
      rintro _ ⟨n, hn, _⟩
      exact absurd hn (List.not_mem_nil n)
  | cons a rest ih =>
      rintro hall ⟨n, hn, entry, hentry, hdir, hpre⟩
      obtain ⟨ea, hea⟩ := findEntry_isSome_of_mem cfg.marketplace.plugins a
        (hall a (List.mem_cons_self a rest))
      unfold removeScan
      rw [hea]
      try dsimp only
      by_cases hdira : fs.isDir (resolveSource ea.source cfg) = true
      · rw [if_pos hdira]
        have hpe : fs.pathExists (resolveSource ea.source cfg) = true := by
          unfold FS.pathExists
          rw [hdira, Bool.or_true]
        have hcanon : canonicalizePath fs (resolveSource ea.source cfg) =
            .ok (resolveSource ea.source cfg) := by
          unfold canonicalizePath
          rw [if_pos hpe]
        rw [hcanon]
        try dsimp only
        by_cases hprea : root.isPrefixOf (resolveSource ea.source cfg) = true
        · have hcond : (!(root.isPrefixOf (resolveSource ea.source cfg)) && !false) = false := by
            rw [hprea]
            rfl
          rw [hcond, if_neg (by decide)]
          have hwit : ∃ x ∈ rest, ∃ e2, findEntry cfg.marketplace.plugins x = some e2 ∧
              fs.isDir (resolveSource e2.source cfg) = true ∧
              root.isPrefixOf (resolveSource e2.source cfg) = false := by
            rcases List.mem_cons.mp hn with rfl | hmem
            · rw [hentry] at hea
              cases hea
              rw [hpre] at hprea
              cases hprea
            · exact ⟨n, hmem, entry, hentry, hdir, hpre⟩
          obtain ⟨resolved, hres⟩ :=
            ih (fun x hx => hall x (List.mem_cons_of_mem a hx)) hwit
          refine ⟨resolved, ?_⟩
          rw [hres]
        · have hpref : root.isPrefixOf (resolveSource ea.source cfg) = false := by
            rcases hb : root.isPrefixOf (resolveSource ea.source cfg) with _ | _
            · rfl
            · exact absurd hb hprea
          have hcond : (!(root.isPrefixOf (resolveSource ea.source cfg)) && !false) = true := by
            rw [hpref]
            rfl
          rw [if_pos hcond]
          exact ⟨resolveSource ea.source cfg, rfl⟩
      · have hdf : fs.isDir (resolveSource ea.source cfg) = false := by
          rcases hb : fs.isDir (resolveSource ea.source cfg) with _ | _
          · rfl
          · exact absurd hb hdira
        rw [hdf, if_neg (by decide)]
        have hwit : ∃ x ∈ rest, ∃ e2, findEntry cfg.marketplace.plugins x = some e2 ∧
            fs.isDir (resolveSource e2.source cfg) = true ∧
            root.isPrefixOf (resolveSource e2.source cfg) = false := by
          rcases List.mem_cons.mp hn with rfl | hmem
          · rw [hentry] at hea
            cases hea
            rw [hdir] at hdf
            cases hdf
          · exact ⟨n, hmem, entry, hentry, hdir, hpre⟩
        exact ih (fun x hx => hall x (List.mem_cons_of_mem a hx)) hwit

end Souk

namespace Souk

theorem remove_override_success (cfg : Config) (epoch : Nat) (fs : FS)
    (n src : String) (tags : List String) (d : FPath) (ma mi pa : Nat)
    (h1 : cfg.marketplace.plugins = [⟨n, src, tags⟩])
    (h2 : fs.read cfg.marketplace_path = some (Content.marketplace cfg.marketplace))
    (h3 : resolveSource src cfg = d)
    (h4 : fs.isDir d = true)
    (h6 : fs.isDir cfg.plugin_root_abs = true)
    (h7 : parseSemver cfg.marketplace.version = some (ma, mi, pa))
    (h8 : cfg.marketplace_path ≠ [])
    (h9 : cfg.marketplace_path.dropLast ≠ [])
    (h10 : cfg.marketplace_path.dropLast.dropLast ++
      parseComps cfg.marketplace.normalizedPluginRoot = cfg.plugin_root_abs) :
    removePlugins [n] true true cfg epoch fs =
      (.ok ⟨[n], []⟩,
        (((fs.write (backupPath cfg.marketplace_path epoch)
              (Content.marketplace cfg.marketplace)).write cfg.marketplace_path
            (Content.marketplace
              ⟨semverString ma mi (pa + 1), cfg.marketplace.pluginRoot, []⟩)).removeFile
          (backupPath cfg.marketplace_path epoch)).removeDirAll d) := by
  have hbne : backupPath cfg.marketplace_path epoch ≠ cfg.marketplace_path :=
    backupPath_ne cfg.marketplace_path epoch
  have hread1 : ((fs.write (backupPath cfg.marketplace_path epoch)
        (Content.marketplace cfg.marketplace)).read cfg.marketplace_path) =
      some (Content.marketplace cfg.marketplace) := by
    rw [FS.read_write, if_neg (fun h => hbne h.symm)]
    exact h2
  have hloop : removeEntriesLoop [n] cfg.marketplace [] =
      ({ cfg.marketplace with plugins := [] }, [n]) := by
    rw [removeEntriesLoop]
    have hany : cfg.marketplace.plugins.any (fun p => decide (p.name = n)) = true := by
      rw [h1]
      simp
    rw [if_pos hany]
    have hfilt : cfg.marketplace.plugins.filter (fun p => !(decide (p.name = n))) = [] := by
      rw [h1]
      simp
    rw [hfilt, removeEntriesLoop]
    rfl
  have hbump : bumpPatch cfg.marketplace.version = .ok (semverString ma mi (pa + 1)) := by
    unfold bumpPatch
    rw [h7]
  have hread2 : (((fs.write (backupPath cfg.marketplace_path epoch)
        (Content.marketplace cfg.marketplace)).write cfg.marketplace_path
        (Content.marketplace
          ⟨semverString ma mi (pa + 1), cfg.marketplace.pluginRoot, []⟩)).read
        cfg.marketplace_path) =
      some (Content.marketplace
        ⟨semverString ma mi (pa + 1), cfg.marketplace.pluginRoot, []⟩) :=
    FS.read_write_self _ _ _
  have hpe2 : (((fs.write (backupPath cfg.marketplace_path epoch)
        (Content.marketplace cfg.marketplace)).write cfg.marketplace_path
        (Content.marketplace
          ⟨semverString ma mi (pa + 1), cfg.marketplace.pluginRoot, []⟩)).pathExists
        cfg.marketplace_path) = true := by
    unfold FS.pathExists FS.isFile
    rw [hread2]
    rfl
  have hcanon2 : canonicalizePath ((fs.write (backupPath cfg.marketplace_path epoch)
        (Content.marketplace cfg.marketplace)).write cfg.marketplace_path
        (Content.marketplace
          ⟨semverString ma mi (pa + 1), cfg.marketplace.pluginRoot, []⟩))
        cfg.marketplace_path = .ok cfg.marketplace_path := by
    unfold canonicalizePath
    rw [if_pos hpe2]
  have hd6 : (((fs.write (backupPath cfg.marketplace_path epoch)
        (Content.marketplace cfg.marketplace)).write cfg.marketplace_path
        (Content.marketplace
          ⟨semverString ma mi (pa + 1), cfg.marketplace.pluginRoot, []⟩)).isDir
        cfg.plugin_root_abs) = true := h6
  have hpe3 : (((fs.write (backupPath cfg.marketplace_path epoch)
        (Content.marketplace cfg.marketplace)).write cfg.marketplace_path
        (Content.marketplace
          ⟨semverString ma mi (pa + 1), cfg.marketplace.pluginRoot, []⟩)).pathExists
        cfg.plugin_root_abs) = true := by
    unfold FS.pathExists
    rw [hd6, Bool.or_true]
  have hcanon3 : canonicalizePath ((fs.write (backupPath cfg.marketplace_path epoch)
        (Content.marketplace cfg.marketplace)).write cfg.marketplace_path
        (Content.marketplace
          ⟨semverString ma mi (pa + 1), cfg.marketplace.pluginRoot, []⟩))
        cfg.plugin_root_abs = .ok cfg.plugin_root_abs := by
    unfold canonicalizePath
    rw [if_pos hpe3]
  have h10' : cfg.marketplace_path.dropLast.dropLast ++
      parseComps (Marketplace.normalizedPluginRoot
        ⟨semverString ma mi (pa + 1), cfg.marketplace.pluginRoot, []⟩) =
      cfg.plugin_root_abs := h10
  have hload : loadMarketplaceConfig ((fs.write (backupPath cfg.marketplace_path epoch)
        (Content.marketplace cfg.marketplace)).write cfg.marketplace_path
        (Content.marketplace
          ⟨semverString ma mi (pa + 1), cfg.marketplace.pluginRoot, []⟩))
        cfg.marketplace_path =
      .ok ⟨cfg.marketplace_path, cfg.marketplace_path.dropLast.dropLast,
        cfg.plugin_root_abs,
        ⟨semverString ma mi (pa + 1), cfg.marketplace.pluginRoot, []⟩⟩ := by
    unfold loadMarketplaceConfig
    rw [hcanon2]
    try dsimp only
    rw [hread2]
    try dsimp only
    rw [parentPath_of_ne_nil _ h8]
    try dsimp only
    rw [parentPath_of_ne_nil _ h9]
    try dsimp only
    rw [h10', hcanon3]
  have hval : (validateMarketplace ((fs.write (backupPath cfg.marketplace_path epoch)
        (Content.marketplace cfg.marketplace)).write cfg.marketplace_path
        (Content.marketplace
          ⟨semverString ma mi (pa + 1), cfg.marketplace.pluginRoot, []⟩))
        ⟨cfg.marketplace_path, cfg.marketplace_path.dropLast.dropLast,
          cfg.plugin_root_abs,
          ⟨semverString ma mi (pa + 1), cfg.marketplace.pluginRoot, []⟩⟩
        true).hasErrors = false := by
    apply hasErrors_eq_false_of_warnings
    intro dg hdg
    have hvn : (parseSemver (semverString ma mi (pa + 1))).isNone = false := by
      rw [parseSemver_semverString]
      rfl
    have hdiags : (validateMarketplace ((fs.write (backupPath cfg.marketplace_path epoch)
          (Content.marketplace cfg.marketplace)).write cfg.marketplace_path
          (Content.marketplace
            ⟨semverString ma mi (pa + 1), cfg.marketplace.pluginRoot, []⟩))
          ⟨cfg.marketplace_path, cfg.marketplace_path.dropLast.dropLast,
            cfg.plugin_root_abs,
            ⟨semverString ma mi (pa + 1), cfg.marketplace.pluginRoot, []⟩⟩
          true).diagnostics =
        (checkCompleteness ((fs.write (backupPath cfg.marketplace_path epoch)
          (Content.marketplace cfg.marketplace)).write cfg.marketplace_path
          (Content.marketplace
            ⟨semverString ma mi (pa + 1), cfg.marketplace.pluginRoot, []⟩))
          ⟨cfg.marketplace_path, cfg.marketplace_path.dropLast.dropLast,
            cfg.plugin_root_abs,
            ⟨semverString ma mi (pa + 1), cfg.marketplace.pluginRoot, []⟩⟩).diagnostics := by
      unfold validateMarketplace
      dsimp only
      rw [hvn, hd6]
      rw [if_neg (show ¬(false = true) from by decide)]
      rw [if_neg (show ¬((!true) = true) from by decide)]
      rw [if_pos (show (true : Bool) = true from rfl)]
      rw [if_neg (show ¬((!true && true) = true) from by decide)]
      simp [dupNameDiags, emptyFieldDiags]
    rw [hdiags] at hdg
    refine checkCompleteness_warnings_only _ _ ?_ dg hdg
    rfl
  have hbody : removeBody [n] cfg (fs.write (backupPath cfg.marketplace_path epoch)
        (Content.marketplace cfg.marketplace)) =
      (.ok [n],
        (fs.write (backupPath cfg.marketplace_path epoch)
          (Content.marketplace cfg.marketplace)).write cfg.marketplace_path
          (Content.marketplace
            ⟨semverString ma mi (pa + 1), cfg.marketplace.pluginRoot, []⟩)) := by
    unfold removeBody
    rw [hread1]
    try dsimp only
    rw [hloop]
    try dsimp only
    rw [hbump]
    try dsimp only
    rw [hload]
    try dsimp only
    rw [hval]
    rw [if_neg (show ¬(false = true) from by decide)]
  have hrb : (((fs.write (backupPath cfg.marketplace_path epoch)
        (Content.marketplace cfg.marketplace)).write cfg.marketplace_path
        (Content.marketplace
          ⟨semverString ma mi (pa + 1), cfg.marketplace.pluginRoot, []⟩)).read
        (backupPath cfg.marketplace_path epoch)) =
      some (Content.marketplace cfg.marketplace) := by
    rw [FS.read_write, if_neg hbne, FS.read_write_self]
  have hcommit : (AtomicGuard.commit
      ⟨cfg.marketplace_path, some (backupPath cfg.marketplace_path epoch), false⟩
      ((fs.write (backupPath cfg.marketplace_path epoch)
        (Content.marketplace cfg.marketplace)).write cfg.marketplace_path
        (Content.marketplace
          ⟨semverString ma mi (pa + 1), cfg.marketplace.pluginRoot, []⟩))
      true).2 =
      .ok (((fs.write (backupPath cfg.marketplace_path epoch)
        (Content.marketplace cfg.marketplace)).write cfg.marketplace_path
        (Content.marketplace
          ⟨semverString ma mi (pa + 1), cfg.marketplace.pluginRoot, []⟩)).removeFile
        (backupPath cfg.marketplace_path epoch)) := by
    unfold AtomicGuard.commit
    dsimp only
    rw [hrb]
    rw [if_pos (show (some (Content.marketplace cfg.marketplace)).isSome = true from rfl)]
    rw [if_pos (show (true : Bool) = true from rfl)]
  have hdel : deleteDirsLoop [(n, d)]
      ((((fs.write (backupPath cfg.marketplace_path epoch)
        (Content.marketplace cfg.marketplace)).write cfg.marketplace_path
        (Content.marketplace
          ⟨semverString ma mi (pa + 1), cfg.marketplace.pluginRoot, []⟩)).removeFile
        (backupPath cfg.marketplace_path epoch))) =
      ((((fs.write (backupPath cfg.marketplace_path epoch)
        (Content.marketplace cfg.marketplace)).write cfg.marketplace_path
        (Content.marketplace
          ⟨semverString ma mi (pa + 1), cfg.marketplace.pluginRoot, []⟩)).removeFile
        (backupPath cfg.marketplace_path epoch))).removeDirAll d := by
    rw [deleteDirsLoop,
      if_pos (show (((fs.write (backupPath cfg.marketplace_path epoch)
        (Content.marketplace cfg.marketplace)).write cfg.marketplace_path
        (Content.marketplace
          ⟨semverString ma mi (pa + 1), cfg.marketplace.pluginRoot, []⟩)).removeFile
        (backupPath cfg.marketplace_path epoch)).isDir d = true from h4),
      deleteDirsLoop]
  have hfe : findEntry cfg.marketplace.plugins n = some ⟨n, src, tags⟩ := by
    rw [h1, findEntry, if_pos rfl]
  have hped : fs.pathExists d = true := by
    unfold FS.pathExists
    rw [h4, Bool.or_true]
  have hcanond : canonicalizePath fs d = .ok d := by
    unfold canonicalizePath
    rw [if_pos hped]
  have hscan : removeScan fs cfg true cfg.plugin_root_abs [n] = .ok [(n, d)] := by
    unfold removeScan
    rw [hfe]
    try dsimp only
    rw [h3, if_pos h4, hcanond]
    try dsimp only
    rw [if_neg (show ¬((!(cfg.plugin_root_abs.isPrefixOf d) && !true) = true) from by simp)]
    rfl
  have hacq : AtomicGuard.new fs cfg.marketplace_path epoch =
      (⟨cfg.marketplace_path, some (backupPath cfg.marketplace_path epoch), false⟩,
        fs.write (backupPath cfg.marketplace_path epoch)
          (Content.marketplace cfg.marketplace)) := by
    unfold AtomicGuard.new
    rw [h2]
  have hroot : fs.pathExists cfg.plugin_root_abs = true := by
    unfold FS.pathExists
    rw [h6, Bool.or_true]
  have hcroot : canonicalizePath fs cfg.plugin_root_abs = .ok cfg.plugin_root_abs := by
    unfold canonicalizePath
    rw [if_pos hroot]
  have hfindnone : [n].find? (fun x => !((entryNames cfg.marketplace).contains x)) = none := by
    have hen : entryNames cfg.marketplace = [n] := by
      unfold entryNames
      rw [h1]
      rfl
    rw [hen]
    simp
  unfold removePlugins
  rw [if_neg (show ¬(([n] : List String).isEmpty = true) from by simp)]
  rw [hfindnone]
  try dsimp only
  rw [if_pos (show (true : Bool) = true from rfl)]
  rw [hcroot]
  try dsimp only
  rw [hscan]
  try dsimp only
  rw [hacq]
  try dsimp only
  rw [hbody]
  try dsimp only
  rw [hcommit]
  try dsimp only
  rw [hdel]

end Souk

namespace Souk

/-- C3: With directory deletion requested and the allow-external-delete
override unset, `remove_plugins` on a batch in which some entry resolves to
a directory outside the plugin root fails with the refusal error and leaves
the filesystem, including the registry file, exactly as it was; the very
same call with the override set removes the registry entry, writes back the
patch-bumped registry, deletes the external directory and clears the
backup. -/
theorem remove_external_requires_override :
    (∀ (names : List String) (cfg : Config) (epoch : Nat) (fs : FS),
      names ≠ [] →
      (∀ n ∈ names, n ∈ entryNames cfg.marketplace) →
      fs.pathExists cfg.plugin_root_abs = true →
      (∃ n ∈ names, ∃ entry, findEntry cfg.marketplace.plugins n = some entry ∧
        fs.isDir (resolveSource entry.source cfg) = true ∧
        cfg.plugin_root_abs.isPrefixOf (resolveSource entry.source cfg) = false) →
      ∃ resolved, removePlugins names true false cfg epoch fs =
        (.error (.other (refuseDeleteMsg resolved cfg.plugin_root_abs)), fs)) ∧
    (∀ (cfg : Config) (epoch : Nat) (fs : FS) (n src : String) (tags : List String)
        (d : FPath) (ma mi pa : Nat),
      cfg.marketplace.plugins = [⟨n, src, tags⟩] →
      fs.read cfg.marketplace_path = some (Content.marketplace cfg.marketplace) →
      resolveSource src cfg = d →
      fs.isDir d = true →
      cfg.plugin_root_abs.isPrefixOf d = false →
      fs.isDir cfg.plugin_root_abs = true →
      parseSemver cfg.marketplace.version = some (ma, mi, pa) →
      cfg.marketplace_path ≠ [] →
      cfg.marketplace_path.dropLast ≠ [] →
      cfg.marketplace_path.dropLast.dropLast ++
        parseComps cfg.marketplace.normalizedPluginRoot = cfg.plugin_root_abs →
      d.isPrefixOf cfg.marketplace_path = false →
      d.isPrefixOf (backupPath cfg.marketplace_path epoch) = false →
      (removePlugins [n] true true cfg epoch fs).1 = .ok ⟨[n], []⟩ ∧
      (removePlugins [n] true true cfg epoch fs).2.read cfg.marketplace_path =
        some (Content.marketplace
          ⟨semverString ma mi (pa + 1), cfg.marketplace.pluginRoot, []⟩) ∧
      (removePlugins [n] true true cfg epoch fs).2.isDir d = false ∧
      (removePlugins [n] true true cfg epoch fs).2.read
        (backupPath cfg.marketplace_path epoch) = none) := by
  constructor
  · intro names cfg epoch fs hne hall hroot hext
    obtain ⟨resolved, hscan⟩ :=
      removeScan_refuses fs cfg cfg.plugin_root_abs names hall hext
    refine ⟨resolved, ?_⟩
    unfold removePlugins
    have hie : names.isEmpty = false := by
      cases names with
      | nil => exact absurd rfl hne
      | cons a l => rfl
    rw [hie, if_neg (show ¬(false = true) from by decide)]
    have hfind : names.find? (fun x => !((entryNames cfg.marketplace).contains x)) =
        none := by
      apply List.find?_eq_none.mpr
      intro x hx
      rw [(list_contains_iff (entryNames cfg.marketplace) x).mpr (hall x hx)]
      decide
    rw [hfind]
    try dsimp only
    rw [if_pos (show (true : Bool) = true from rfl)]
    rw [show canonicalizePath fs cfg.plugin_root_abs = .ok cfg.plugin_root_abs from by
      unfold canonicalizePath
      rw [if_pos hroot]]
    try dsimp only
    rw [hscan]
  · intro cfg epoch fs n src tags d ma mi pa h1 h2 h3 h4 h5 h6 h7 h8 h9 h10 h11 h12
    have hrun := remove_override_success cfg epoch fs n src tags d ma mi pa
      h1 h2 h3 h4 h6 h7 h8 h9 h10
    rw [hrun]
    try dsimp only
    refine ⟨rfl, ?_, ?_, ?_⟩
    · rw [FS.read_removeDirAll, if_neg (show ¬(d.isPrefixOf cfg.marketplace_path = true)
          from by rw [h11]; decide),
        FS.read_removeFile,
        if_neg (fun hq => (backupPath_ne cfg.marketplace_path epoch) hq.symm),
        FS.read_write_self]
    · rw [FS.isDir_removeDirAll, isPrefixOf_self, Bool.not_true, Bool.and_false]
    · rw [FS.read_removeDirAll,
        if_neg (show ¬(d.isPrefixOf (backupPath cfg.marketplace_path epoch) = true)
          from by rw [h12]; decide),
        FS.read_removeFile, if_pos rfl]

end Souk

namespace Souk

/-- Registry of the external-plugin remove scenario: a single entry whose
source is the absolute path `/extdir/ext`, outside the plugin root. -/
def extMp : Marketplace := ⟨"0.1.0", some "./plugins", [⟨"ext", "/extdir/ext", []⟩]⟩

/-- Registry file path of the external-plugin remove scenario. -/
def extMpPath : FPath := ["proj", ".claude-plugin", "marketplace.json"]

/-- Configuration of the external-plugin remove scenario. -/
def extCfg : Config := ⟨extMpPath, ["proj"], ["proj", "plugins"], extMp⟩

/-- Filesystem of the external-plugin remove scenario. -/
def extFS : FS :=
  ⟨[(extMpPath, Content.marketplace extMp)],
   [["proj"], ["proj", "plugins"], ["extdir"], ["extdir", "ext"]], []⟩

theorem remove_external_requires_override_witness :
    (∃ resolved, removePlugins ["ext"] true false extCfg 7 extFS =
      (.error (.other (refuseDeleteMsg resolved extCfg.plugin_root_abs)), extFS)) ∧
    (removePlugins ["ext"] true true extCfg 7 extFS).1 = .ok ⟨["ext"], []⟩ ∧
    (removePlugins ["ext"] true true extCfg 7 extFS).2.isDir ["extdir", "ext"] = false ∧
    (removePlugins ["ext"] true true extCfg 7 extFS).2.read extCfg.marketplace_path =
      some (Content.marketplace ⟨"0.1.1", some "./plugins", []⟩) ∧
    (removePlugins ["ext"] true true extCfg 7 extFS).2.read
      (backupPath extCfg.marketplace_path 7) = none := by
  obtain ⟨hA, hB⟩ := remove_external_requires_override
  have hb := hB extCfg 7 extFS "ext" "/extdir/ext" [] ["extdir", "ext"] 0 1 0
    rfl rfl (by decide) (by decide) (by decide) (by decide) (by decide) (by decide)
    (by decide) (by decide) (by decide) (by decide)
  refine ⟨hA ["ext"] extCfg 7 extFS (by decide) (by decide) (by decide)
    ⟨"ext", by decide, ⟨"ext", "/extdir/ext", []⟩, by decide, by decide, by decide⟩,
    hb.1, hb.2.2.1, hb.2.1, hb.2.2.2⟩

end Souk
